import Mathlib

/-!
Verification development for the promo-distribution bot
(`telegram_promo_bot_postgres.py`).

The database state is embedded shallowly:

* `promocodes` rows become the list `promos` (ordered by `added_at, id`,
  which is the order every query in the source uses);
* `weekly_users` rows of the current week become `positions`, the
  position-ordered list of optional bound participant ids (`NULL` = `none`);
* `distribution` rows become the append-only list `ledger` (the constant
  `count = 1` column and the timestamp are dropped, they are never read by
  the logic under study);
* the `settings` table becomes the record `Settings` holding the three keys
  the engine uses (`reserve`, `weekly_confirmed`, `last_distribution_date`);
* APScheduler jobs are the list `jobs` of job ids.

Python integers are modelled as `Int` (they are unbounded); Python's
truthiness test `if ordered[i]` on a nullable id is modelled by
`Option.isSome` (bound ids are Telegram ids, which are nonzero).
The wall clock only enters through `get_week_start()`; it is held fixed as
the parameter `week` of each operation.
-/

/-- A row of the `promocodes` table: `id, code, total_uses, used`. -/
structure Promo where
  pid : Nat
  code : String
  total_uses : Int
  used : Int
  deriving DecidableEq, Repr

/-- `total_uses - used`, the Python expression for what is left of a code. -/
def remaining (p : Promo) : Int :=
  p.total_uses - p.used

/-- A row of the `distribution` table: `user_id, promo_id, code, source`. -/
structure Entry where
  user_id : Nat
  promo_id : Nat
  code : String
  source : String
  deriving DecidableEq, Repr

/-- The three `settings` keys the engine reads and writes. -/
structure Settings where
  reserve : Int
  weekly_confirmed : String
  last_distribution_date : String
  deriving DecidableEq, Repr

/-- The whole persistent state of the bot. -/
structure BotState where
  promos : List Promo
  positions : List (Option Nat)
  ledger : List Entry
  settings : Settings
  jobs : List String
  deriving DecidableEq, Repr

/-- `user_already_has_code`: `SELECT 1 FROM distribution WHERE user_id = ? AND code = ?`. -/
def user_already_has_code (ledger : List Entry) (tg : Nat) (code : String) : Bool :=
  ledger.any (fun e => e.user_id == tg && e.code == code)

/-- `total_available = sum(max(0, p.total_uses - p.used) for p in promos)`. -/
def total_available (promos : List Promo) : Int :=
  (promos.map (fun p => max 0 (remaining p))).sum

/-!
## The allocation algorithm (`compute_allocation_ordered`)

Quantity pass.  The source runs two loops over `allocated = [0]*n`:
the first over `range(min(15, n))` giving every bound slot `min(3,
distributable)`, the second over `range(15, n)` giving every bound slot one
unit and breaking as soon as `distributable <= 0`.  `quota_pass` fuses the
two loops: the counter starts at `15` and counts the slots still governed
by the first loop.
-/

def quota_pass : List (Option Nat) → Nat → Int → List Int × Int
  | [], _, d => ([], d)
  | o :: rest, k + 1, d =>
    match o with
    | some _ =>
      let give := min 3 d
      let r := quota_pass rest k (d - give)
      (give :: r.1, r.2)
    | none =>
      let r := quota_pass rest k d
      (0 :: r.1, r.2)
  | o :: rest, 0, d =>
    if d ≤ 0 then (List.replicate (o :: rest).length 0, d)
    else
      match o with
      | some _ =>
        let r := quota_pass rest 0 (d - 1)
        (1 :: r.1, r.2)
      | none =>
        let r := quota_pass rest 0 d
        (0 :: r.1, r.2)

/-- `allocated[i] += 1` (no-op beyond the end of the list, which never happens). -/
def bump (l : List Int) (i : Nat) : List Int :=
  l.set i (l.getD i 0 + 1)

/-- `[i for i in range(15, n) if ordered[i]] or [i for i in range(n) if ordered[i]]`. -/
def eligible_idxs (ordered : List (Option Nat)) : List Nat :=
  let beyond := (List.range ordered.length).filter
    (fun i => decide (15 ≤ i) && (ordered.getD i none).isSome)
  if beyond.isEmpty then
    (List.range ordered.length).filter (fun i => (ordered.getD i none).isSome)
  else beyond

/-- The round-robin surplus loop: `while distributable > 0 and eligible: ...`.
`fuel` is the remaining `distributable` (it decreases by one per round). -/
def spill : List Int → List Nat → Nat → Nat → List Int
  | alloc, _, _, 0 => alloc
  | alloc, elig, idx, fuel + 1 =>
    if elig.isEmpty then alloc
    else spill (bump alloc (elig.getD (idx % elig.length) 0)) elig (idx + 1) fuel

/-- The whole quantity-allocation phase: quota pass then (if anything is
left) the spillover pass. -/
def quota_alloc (ordered : List (Option Nat)) (d0 : Int) : List Int :=
  let r := quota_pass ordered 15 d0
  if 0 < r.2 then spill r.1 (eligible_idxs ordered) 0 r.2.toNat else r.1

/-- One element of `promo_iter`: a code together with its mutable
`remaining` counter. -/
structure IterEntry where
  code : String
  remaining : Int
  deriving DecidableEq, Repr

/-- The inner `for offset in range(len(promo_iter))` scan: find the first
position, starting from the rolling cursor, whose code has budget left, was
not yet given to this user in this pass, and is not in the user's ledger. -/
def find_code (iter : List IterEntry) (pidx : Nat) (used : List String)
    (ledger : List Entry) (tg : Nat) : Option Nat :=
  ((List.range iter.length).find? (fun off =>
      let e := iter.getD ((pidx + off) % iter.length) ⟨"", 0⟩
      decide (0 < e.remaining) && !(used.contains e.code)
        && !(user_already_has_code ledger tg e.code))).map
    (fun off => (pidx + off) % iter.length)

/-- The `for _ in range(cnt)` loop handing one slot its codes; stops at the
first unit for which no eligible code exists.  Returns the codes given so
far (`acc` plays both `codes_given` and `used_codes_for_user`), the updated
`promo_iter` and the rolling cursor. -/
def pick_codes (ledger : List Entry) (tg : Nat) :
    Nat → List IterEntry → Nat → List String → List String × List IterEntry × Nat
  | 0, iter, pidx, acc => (acc, iter, pidx)
  | cnt + 1, iter, pidx, acc =>
    match find_code iter pidx acc ledger tg with
    | none => (acc, iter, pidx)
    | some idx =>
      let e := iter.getD idx ⟨"", 0⟩
      pick_codes ledger tg cnt (iter.set idx ⟨e.code, e.remaining - 1⟩) idx (acc ++ [e.code])

/-- `distribution_plan[tg] = distribution_plan.get(tg, []) + codes`: a
Python dict in insertion order. -/
def upsert : List (Nat × List String) → Nat → List String → List (Nat × List String)
  | [], tg, codes => [(tg, codes)]
  | e :: rest, tg, codes =>
    if e.1 == tg then (e.1, e.2 ++ codes) :: rest
    else e :: upsert rest tg codes

/-- The code-selection phase (`for pos_idx, cnt in enumerate(allocated)`),
threading `promo_iter` and the rolling cursor across slots. -/
def select_codes (ledger : List Entry) :
    List (Option Nat × Int) → List IterEntry → Nat → List (Nat × List String)
    → List (Nat × List String) × List IterEntry × Nat
  | [], iter, pidx, plan => (plan, iter, pidx)
  | (o, cnt) :: rest, iter, pidx, plan =>
    match o with
    | none => select_codes ledger rest iter pidx plan
    | some tg =>
      if cnt ≤ 0 then select_codes ledger rest iter pidx plan
      else
        let r := pick_codes ledger tg cnt.toNat iter pidx []
        if r.1.isEmpty then select_codes ledger rest r.2.1 r.2.2 plan
        else select_codes ledger rest r.2.1 r.2.2 (upsert plan tg r.1)

/-- `compute_allocation_ordered`, as a pure function of the week's
positions, the promo pool, the reserve and the ledger. -/
def compute_allocation_ordered (positions : List (Option Nat)) (promos : List Promo)
    (reserve : Int) (ledger : List Entry) : List (Nat × List String) :=
  if positions.isEmpty then []
  else
    let distributable := total_available promos - reserve
    if distributable ≤ 0 then []
    else
      let alloc := quota_alloc positions distributable
      let iter := (promos.filter (fun p => decide (0 < remaining p))).map
        (fun p => IterEntry.mk p.code (remaining p))
      if iter.isEmpty then []
      else (select_codes ledger (positions.zip alloc) iter 0 []).1

/-!
## The issuance loop shared by the scheduled and the manual trigger

Both `weekly_distribution_job` and `cb_manual_confirm` build
`rem_map = {code: (id, total_uses - used)}` once, then walk the plan and,
for every code that the snapshot says still has budget and that the user
does not already hold, insert a `distribution` row and bump `used`.
-/

/-- `rem_map.get(code, (None, 0))` (codes are unique in the table). -/
def rem_map (promos : List Promo) (code : String) : Option (Nat × Int) :=
  (promos.find? (fun p => p.code == code)).map (fun p => (p.pid, remaining p))

/-- Insert one `distribution` row and run
`UPDATE promocodes SET used = used + 1 WHERE id = pid`. -/
def issue_one (s : BotState) (src : String) (tg : Nat) (code : String) (pid : Nat) :
    BotState :=
  { s with
    ledger := s.ledger ++ [⟨tg, pid, code, src⟩],
    promos := s.promos.map (fun p => if p.pid == pid then
      { p with used := p.used + 1 } else p) }

/-- The issuance loop over the flattened sequence of (user, code) units. -/
def run_units (rm : String → Option (Nat × Int)) (src : String) :
    List (Nat × String) → BotState → BotState
  | [], s => s
  | (tg, code) :: rest, s =>
    match rm code with
    | none => run_units rm src rest s
    | some (pid, r) =>
      if r ≤ 0 then run_units rm src rest s
      else if user_already_has_code s.ledger tg code then run_units rm src rest s
      else run_units rm src rest (issue_one s src tg code pid)

/-- The inner `for code in codes` loop of the distribution jobs. -/
def run_user (rm : String → Option (Nat × Int)) (src : String) (tg : Nat) :
    List String → BotState → BotState
  | [], s => s
  | code :: rest, s =>
    match rm code with
    | none => run_user rm src tg rest s
    | some (pid, r) =>
      if r ≤ 0 then run_user rm src tg rest s
      else if user_already_has_code s.ledger tg code then run_user rm src tg rest s
      else run_user rm src tg rest (issue_one s src tg code pid)

/-- The outer `for tg_id, codes in plan.items()` loop (the `rem_map`
snapshot is fixed at entry). -/
def run_plan_aux (rm : String → Option (Nat × Int)) (src : String) :
    List (Nat × List String) → BotState → BotState
  | [], s => s
  | e :: rest, s => run_plan_aux rm src rest (run_user rm src e.1 e.2 s)

/-- The whole issuance loop of a distribution job: snapshot `rem_map` from
the current promos, then walk the plan. -/
def run_plan (src : String) (plan : List (Nat × List String)) (s : BotState) : BotState :=
  run_plan_aux (rem_map s.promos) src plan s

/-- The reminder job id `f"weekly_reminder_{week}"`. -/
def reminder_id (week : String) : String :=
  "weekly_reminder_" ++ week

/-- `weekly_distribution_job` (the scheduled period trigger). -/
def weekly_distribution_job (week : String) (s : BotState) : BotState :=
  if s.settings.last_distribution_date = week then s
  else if s.settings.weekly_confirmed ≠ "1" then s
  else
    let plan := compute_allocation_ordered s.positions s.promos s.settings.reserve s.ledger
    if plan.isEmpty then
      { s with settings := { s.settings with weekly_confirmed := "0" } }
    else
      let s1 := run_plan "normal" plan s
      { s1 with
        settings := { s1.settings with
          last_distribution_date := week, weekly_confirmed := "0" },
        jobs := s1.jobs.filter (fun j => j ≠ reminder_id week) }

/-- `cb_manual_confirm` (the manual-override execution path). -/
def cb_manual_confirm (week : String) (s : BotState) : BotState :=
  let plan := compute_allocation_ordered s.positions s.promos s.settings.reserve s.ledger
  if plan.isEmpty then s
  else
    let s1 := run_plan "manual" plan s
    { s1 with settings := { s1.settings with last_distribution_date := week } }

/-- `send_weekly_confirmation`: the flag reset and the reminder scheduling
(`add_job` is `now < remind_end`); the preview itself is read-only. -/
def send_weekly_confirmation (week : String) (add_job : Bool) (s : BotState) : BotState :=
  let s1 := { s with settings := { s.settings with weekly_confirmed := "0" } }
  if add_job then
    { s1 with jobs := s1.jobs.filter (fun j => j ≠ reminder_id week) ++ [reminder_id week] }
  else s1

/-- `cb_weekly_confirm`: set the confirmation flag. -/
def cb_weekly_confirm (s : BotState) : BotState :=
  { s with settings := { s.settings with weekly_confirmed := "1" } }

/-- `cb_weekly_error`: clear the confirmation flag (the three `err_*`
follow-ups only edit messages). -/
def cb_weekly_error (s : BotState) : BotState :=
  { s with settings := { s.settings with weekly_confirmed := "0" } }

/-!
## The interactive manual issuance flow (`/givepromo`)
-/

/-- The validation loop of `givepromo_codes_entered`: each code must exist,
have budget left, and not already be in the user's ledger; any failure
aborts the whole command. -/
def validate_codes (promos : List Promo) (ledger : List Entry) (tg : Nat) :
    List String → Option (List (Nat × String))
  | [] => some []
  | code :: rest =>
    match promos.find? (fun p => p.code == code) with
    | none => none
    | some p =>
      if remaining p ≤ 0 then none
      else if user_already_has_code ledger tg code then none
      else (validate_codes promos ledger tg rest).map (fun v => (p.pid, code) :: v)

/-- `givepromo_codes_entered`: the commit step of `/givepromo`.  The
entered codes must number exactly `qty`, be pairwise distinct, and all
validate; then all are issued and, for a reserve-channel issuance, the
reserve is decremented (clamped at 0). -/
def givepromo_codes_entered (s : BotState) (tg : Nat) (give_type : String)
    (qty : Nat) (parts : List String) : BotState :=
  if parts.length ≠ qty then s
  else if ¬ parts.Nodup then s
  else
    match validate_codes s.promos s.ledger tg parts with
    | none => s
    | some valid =>
      let s1 := valid.foldl (fun st pc =>
        { st with
          ledger := st.ledger ++ [⟨tg, pc.1, pc.2, give_type⟩],
          promos := st.promos.map (fun p => if p.pid == pc.1 then
            { p with used := p.used + 1 } else p) }) s
      if give_type == "reserve" then
        { s1 with settings := { s1.settings with
          reserve := max 0 (s1.settings.reserve - valid.length) } }
      else s1

/-!
## The remaining mutating admin operations
-/

/-- A fresh `SERIAL` id for a new promo row. -/
def fresh_pid (promos : List Promo) : Nat :=
  (promos.map (fun p => p.pid)).foldr max 0 + 1

/-- One `INSERT ... ON CONFLICT (code) DO NOTHING` of `add_promocodes`. -/
def add_code (promos : List Promo) (code : String) (uses : Nat) : List Promo :=
  if promos.any (fun p => p.code == code) then promos
  else promos ++ [⟨fresh_pid promos, code, (uses : Int), 0⟩]

/-- `add_promocodes(codes, total_uses)`. -/
def add_promocodes (promos : List Promo) (codes : List String) (uses : Nat) : List Promo :=
  codes.foldl (fun ps c => add_code ps c uses) promos

/-- The commit of the `/addpromo` conversation: add the codes and put
`reserve_put` uses into the reserve. -/
def addpromo_flow (s : BotState) (codes : List String) (uses : Nat)
    (reserve_put : Nat) : BotState :=
  { s with
    promos := add_promocodes s.promos codes uses,
    settings := { s.settings with reserve := s.settings.reserve + reserve_put } }

/-- `/setusers`: delete this week's roster and insert the new one. -/
def setusers (s : BotState) (ids : List (Option Nat)) : BotState :=
  { s with positions := ids }

/-- `/assign` (and the `assign_choose` callback): bind a user to a position. -/
def assign_position (s : BotState) (pos : Nat) (tg : Nat) : BotState :=
  { s with positions := s.positions.set pos (some tg) }

/-- The state of a fresh database (the `INSERT ... DO NOTHING` defaults:
`reserve = 0`, `weekly_confirmed = "0"`, `last_distribution_date = ""`). -/
def initState : BotState :=
  { promos := [], positions := [], ledger := [],
    settings := { reserve := 0, weekly_confirmed := "0", last_distribution_date := "" },
    jobs := [] }

/-- One mutating operation of the bot. -/
inductive Step : BotState → BotState → Prop
  | setusers (ids : List (Option Nat)) (s : BotState) : Step s (setusers s ids)
  | assign (pos tg : Nat) (s : BotState) : Step s (assign_position s pos tg)
  | addpromo (codes : List String) (uses put : Nat) (s : BotState) :
      Step s (addpromo_flow s codes uses put)
  | confirm (s : BotState) : Step s (cb_weekly_confirm s)
  | report_error (s : BotState) : Step s (cb_weekly_error s)
  | send_confirmation (wk : String) (b : Bool) (s : BotState) :
      Step s (send_weekly_confirmation wk b s)
  | weekly (wk : String) (s : BotState) : Step s (weekly_distribution_job wk s)
  | manual (wk : String) (s : BotState) : Step s (cb_manual_confirm wk s)
  | give (tg : Nat) (gt : String) (qty : Nat) (parts : List String) (s : BotState) :
      Step s (givepromo_codes_entered s tg gt qty parts)

/-- Finitely many operations in sequence. -/
def Reachable : BotState → BotState → Prop :=
  Relation.ReflTransGen Step

/-!
## Derived notions the claims speak about
-/

/-- The uniqueness key of a ledger entry. -/
def entry_key (e : Entry) : Nat × String :=
  (e.user_id, e.code)

/-- No two ledger entries share the same (participant, code) pair. -/
def UniqLedger (ledger : List Entry) : Prop :=
  (ledger.map entry_key).Nodup

/-- Every code's consumed count is at most its total budget. -/
def BudgetOk (promos : List Promo) : Prop :=
  ∀ p ∈ promos, p.used ≤ p.total_uses

/-- The schema constraints on `promocodes`: `code` is `UNIQUE`, `id` is the
`SERIAL` primary key. -/
def PromosWF (promos : List Promo) : Prop :=
  (promos.map (fun p => p.code)).Nodup ∧ (promos.map (fun p => p.pid)).Nodup

/-- A ledger entry without its channel tag. -/
def strip_source (e : Entry) : Nat × Nat × String :=
  (e.user_id, e.promo_id, e.code)

/-- The flattened unit sequence of a plan. -/
def flat_units (plan : List (Nat × List String)) : List (Nat × String) :=
  (plan.map (fun e => e.2.map (fun c => (e.1, c)))).flatten

/-- How many units of code `c` a plan assigns in total. -/
def unit_count (c : String) (plan : List (Nat × List String)) : Nat :=
  (plan.map (fun e => e.2.count c)).sum

/-- The total number of units a plan assigns. -/
def plan_len (plan : List (Nat × List String)) : Nat :=
  (plan.map (fun e => e.2.length)).sum

/-- `used` bumped by the number of units of this code issued so far. -/
def upd_used (k : String → Nat) (p : Promo) : Promo :=
  { p with used := p.used + k p.code }

/-- The codes of a `promo_iter`. -/
def codes_of (iter : List IterEntry) : List String :=
  iter.map (fun e => e.code)

/-- Out-of-range default for `promo_iter` lookups (never actually read). -/
def iter_default : IterEntry :=
  ⟨"", 0⟩

/-!
## Concrete states used to exercise the operations
-/

/-- One promo code with five uses, one bound roster slot, flag unset, and
the period marker already equal to the current period `"2025-01-05"`. -/
def exC2State : BotState :=
  { promos := [⟨1, "A", 5, 0⟩], positions := [some 7], ledger := [],
    settings := ⟨0, "0", "2025-01-05"⟩, jobs := [] }

/-- Same data but confirmed and with the period not yet executed. -/
def exConfirmedState : BotState :=
  { promos := [⟨1, "A", 5, 0⟩], positions := [some 7], ledger := [],
    settings := ⟨0, "1", ""⟩, jobs := [] }

/-- A confirmed period whose allocation is empty (no roster). -/
def exC7State : BotState :=
  { promos := [], positions := [], ledger := [],
    settings := ⟨0, "1", ""⟩, jobs := [] }

/-- An unconfirmed period with a pending reminder job. -/
def exC9State : BotState :=
  { promos := [], positions := [], ledger := [],
    settings := ⟨0, "0", ""⟩, jobs := [reminder_id "2025-01-05"] }

/-!
## Basic lemmas about the issuance loop
-/

theorem user_already_has_code_iff (l : List Entry) (tg : Nat) (c : String) :
    user_already_has_code l tg c = true ↔ (tg, c) ∈ l.map entry_key := by
  simp [user_already_has_code, List.any_eq_true, entry_key, Prod.ext_iff, and_assoc]

theorem user_already_has_code_false_iff (l : List Entry) (tg : Nat) (c : String) :
    user_already_has_code l tg c = false ↔ (tg, c) ∉ l.map entry_key := by
  rw [Bool.eq_false_iff]
  exact not_congr (user_already_has_code_iff l tg c)

theorem run_user_eq_units (rm : String → Option (Nat × Int)) (src : String) (tg : Nat) :
    ∀ (codes : List String) (s : BotState),
      run_user rm src tg codes s = run_units rm src (codes.map (fun c => (tg, c))) s := by
  intro codes
  induction codes with
  | nil => intro s; rfl
  | cons c rest ih =>
    intro s
    simp only [run_user, run_units, List.map_cons]
    cases rm c with
    | none => exact ih s
    | some pr =>
      obtain ⟨pid, r⟩ := pr
      by_cases hr : r ≤ 0
      · simp only [if_pos hr]; exact ih s
      · simp only [if_neg hr]
        by_cases hu : user_already_has_code s.ledger tg c
        · simp only [if_pos hu]; exact ih s
        · simp only [if_neg hu]; exact ih _

theorem run_units_append (rm : String → Option (Nat × Int)) (src : String) :
    ∀ (u v : List (Nat × String)) (s : BotState),
      run_units rm src (u ++ v) s = run_units rm src v (run_units rm src u s) := by
  intro u
  induction u with
  | nil => intro v s; rfl
  | cons x rest ih =>
    intro v s
    obtain ⟨tg, c⟩ := x
    simp only [List.cons_append, run_units]
    cases rm c with
    | none => exact ih v s
    | some pr =>
      obtain ⟨pid, r⟩ := pr
      by_cases hr : r ≤ 0
      · simp only [if_pos hr]; exact ih v s
      · simp only [if_neg hr]
        by_cases hu : user_already_has_code s.ledger tg c
        · simp only [if_pos hu]; exact ih v s
        · simp only [if_neg hu]; exact ih v _

theorem run_plan_aux_eq_units (rm : String → Option (Nat × Int)) (src : String) :
    ∀ (plan : List (Nat × List String)) (s : BotState),
      run_plan_aux rm src plan s = run_units rm src (flat_units plan) s := by
  intro plan
  induction plan with
  | nil => intro s; rfl
  | cons e rest ih =>
    intro s
    simp only [run_plan_aux, flat_units, List.map_cons, List.flatten_cons]
    rw [run_units_append, ← run_user_eq_units, ih]
    rfl

theorem run_units_frame (rm : String → Option (Nat × Int)) (src : String) :
    ∀ (units : List (Nat × String)) (s : BotState),
      (run_units rm src units s).settings = s.settings ∧
      (run_units rm src units s).positions = s.positions ∧
      (run_units rm src units s).jobs = s.jobs := by
  intro units
  induction units with
  | nil => intro s; exact ⟨rfl, rfl, rfl⟩
  | cons x rest ih =>
    intro s
    obtain ⟨tg, c⟩ := x
    simp only [run_units]
    cases rm c with
    | none => exact ih s
    | some pr =>
      obtain ⟨pid, r⟩ := pr
      by_cases hr : r ≤ 0
      · simp only [if_pos hr]; exact ih s
      · simp only [if_neg hr]
        by_cases hu : user_already_has_code s.ledger tg c
        · simp only [if_pos hu]; exact ih s
        · simp only [if_neg hu]; exact ih _

theorem run_units_news (rm : String → Option (Nat × Int)) (src : String) :
    ∀ (units : List (Nat × String)) (s : BotState),
      ∃ news : List Entry,
        (run_units rm src units s).ledger = s.ledger ++ news ∧
        ∀ e ∈ news, e.source = src := by
  intro units
  induction units with
  | nil => intro s; exact ⟨[], by simp [run_units], by simp⟩
  | cons x rest ih =>
    intro s
    obtain ⟨tg, c⟩ := x
    simp only [run_units]
    cases rm c with
    | none => exact ih s
    | some pr =>
      obtain ⟨pid, r⟩ := pr
      by_cases hr : r ≤ 0
      · simp only [if_pos hr]; exact ih s
      · simp only [if_neg hr]
        by_cases hu : user_already_has_code s.ledger tg c
        · simp only [if_pos hu]; exact ih s
        · simp only [if_neg hu]
          obtain ⟨news, hn, hsrc⟩ := ih (issue_one s src tg c pid)
          refine ⟨⟨tg, pid, c, src⟩ :: news, ?_, ?_⟩
          · rw [hn]; simp [issue_one]
          · intro e he
            rcases List.mem_cons.1 he with h | h
            · rw [h]
            · exact hsrc e h

theorem run_units_uniq (rm : String → Option (Nat × Int)) (src : String) :
    ∀ (units : List (Nat × String)) (s : BotState),
      UniqLedger s.ledger → UniqLedger (run_units rm src units s).ledger := by
  intro units
  induction units with
  | nil => intro s h; exact h
  | cons x rest ih =>
    intro s h
    obtain ⟨tg, c⟩ := x
    simp only [run_units]
    cases rm c with
    | none => exact ih s h
    | some pr =>
      obtain ⟨pid, r⟩ := pr
      by_cases hr : r ≤ 0
      · simp only [if_pos hr]; exact ih s h
      · simp only [if_neg hr]
        by_cases hu : user_already_has_code s.ledger tg c
        · simp only [if_pos hu]; exact ih s h
        · simp only [if_neg hu]
          refine ih _ ?_
          have hf : (tg, c) ∉ s.ledger.map entry_key :=
            (user_already_has_code_false_iff _ _ _).1 (Bool.eq_false_iff.2 hu)
          unfold UniqLedger issue_one at *
          simp only [List.map_append, List.map_cons, List.map_nil]
          rw [List.nodup_append]
          exact ⟨h, List.nodup_singleton _, by
            intro a ha hb
            simp only [List.mem_singleton] at hb
            subst hb
            exact hf ha⟩

/-!
## Lemmas about the quantity-allocation phase
-/

theorem quota_pass_length (l : List (Option Nat)) :
    ∀ (k : Nat) (d : Int), (quota_pass l k d).1.length = l.length := by
  induction l with
  | nil => intro k d; rfl
  | cons o rest ih =>
    intro k d
    cases k with
    | zero =>
      by_cases hd : d ≤ 0
      · simp [quota_pass, hd]
      · cases o <;> simp [quota_pass, hd, ih]
    | succ k' => cases o <;> simp [quota_pass, ih]

theorem quota_pass_sum (l : List (Option Nat)) :
    ∀ (k : Nat) (d : Int), 0 ≤ d →
      (quota_pass l k d).1.sum + (quota_pass l k d).2 = d ∧ 0 ≤ (quota_pass l k d).2 := by
  induction l with
  | nil => intro k d hd; simpa [quota_pass] using hd
  | cons o rest ih =>
    intro k d hd
    cases k with
    | zero =>
      by_cases hle : d ≤ 0
      · simp only [quota_pass, if_pos hle]
        constructor
        · simp [List.sum_replicate]
        · exact hd
      · cases o with
        | none =>
          simp only [quota_pass, if_neg hle]
          have := ih 0 d hd
          simpa using this
        | some a =>
          simp only [quota_pass, if_neg hle]
          have hd1 : (0 : Int) ≤ d - 1 := by omega
          have := ih 0 (d - 1) hd1
          simp only [List.sum_cons]
          omega
    | succ k' =>
      cases o with
      | none =>
        simp only [quota_pass]
        have := ih k' d hd
        simpa using this
      | some a =>
        simp only [quota_pass]
        have hd' : (0 : Int) ≤ d - min 3 d := by omega
        have := ih k' (d - min 3 d) hd'
        simp only [List.sum_cons]
        omega

theorem quota_pass_mem_nonneg (l : List (Option Nat)) :
    ∀ (k : Nat) (d : Int), 0 ≤ d → ∀ x ∈ (quota_pass l k d).1, 0 ≤ x := by
  induction l with
  | nil => intro k d _ x hx; simp [quota_pass] at hx
  | cons o rest ih =>
    intro k d hd x hx
    cases k with
    | zero =>
      by_cases hle : d ≤ 0
      · simp only [quota_pass, if_pos hle] at hx
        rw [List.eq_of_mem_replicate hx]
      · cases o with
        | none =>
          simp only [quota_pass, if_neg hle, List.mem_cons] at hx
          rcases hx with h | h
          · omega
          · exact ih 0 d hd x h
        | some a =>
          simp only [quota_pass, if_neg hle, List.mem_cons] at hx
          rcases hx with h | h
          · omega
          · exact ih 0 (d - 1) (by omega) x h
    | succ k' =>
      cases o with
      | none =>
        simp only [quota_pass, List.mem_cons] at hx
        rcases hx with h | h
        · omega
        · exact ih k' d hd x h
      | some a =>
        simp only [quota_pass, List.mem_cons] at hx
        rcases hx with h | h
        · omega
        · exact ih k' (d - min 3 d) (by omega) x h

theorem quota_pass_getD (l : List (Option Nat)) :
    ∀ (k : Nat) (d : Int), 0 ≤ d → ∀ i < l.length,
      (quota_pass l k d).1.getD i 0 =
        if (l.getD i none).isSome then
          min (if i < k then 3 else 1) (d - ((quota_pass l k d).1.take i).sum)
        else 0 := by
  induction l with
  | nil => intro k d _ i hi; simp at hi
  | cons o rest ih =>
    intro k d hd i hi
    cases k with
    | zero =>
      by_cases hle : d ≤ 0
      · have hd0 : d = 0 := le_antisymm hle hd
        subst hd0
        simp only [quota_pass, if_pos hle]
        have htake : ((List.replicate (o :: rest).length (0 : Int)).take i).sum = 0 := by
          rw [List.take_replicate]
          simp [List.sum_replicate]
        have hget : (List.replicate (o :: rest).length (0 : Int)).getD i 0 = 0 := by
          rcases lt_or_le i (o :: rest).length with h | h
          · rw [List.getD_eq_getElem _ _ (by simpa using h)]
            simp
          · rw [List.getD_eq_default _ _ (by simpa using h)]
        rw [hget, htake]
        rcases (o :: rest).getD i none with _ | a <;> simp
      · cases o with
        | some a =>
          simp only [quota_pass, if_neg hle]
          cases i with
          | zero => simp; omega
          | succ j =>
            have hj : j < rest.length := by simpa using hi
            have := ih 0 (d - 1) (by omega) j hj
            simp only [List.getD_cons_succ, List.take_succ_cons, List.sum_cons]
            rw [this]
            by_cases hb : (rest.getD j none).isSome
            · simp only [if_pos hb]
              congr 1
              omega
            · simp only [if_neg hb]
        | none =>
          simp only [quota_pass, if_neg hle]
          cases i with
          | zero => simp
          | succ j =>
            have hj : j < rest.length := by simpa using hi
            have := ih 0 d hd j hj
            simp only [List.getD_cons_succ, List.take_succ_cons, List.sum_cons]
            rw [this]
            by_cases hb : (rest.getD j none).isSome
            · simp only [if_pos hb]
              congr 1
              omega
            · simp only [if_neg hb]
    | succ k' =>
      cases o with
      | some a =>
        simp only [quota_pass]
        cases i with
        | zero => simp
        | succ j =>
          have hj : j < rest.length := by simpa using hi
          have := ih k' (d - min 3 d) (by omega) j hj
          simp only [List.getD_cons_succ, List.take_succ_cons, List.sum_cons]
          rw [this]
          have hik : j + 1 < k' + 1 ↔ j < k' := by omega
          by_cases hb : (rest.getD j none).isSome
          · simp only [if_pos hb, hik]
            congr 1
            omega
          · simp only [if_neg hb]
      | none =>
        simp only [quota_pass]
        cases i with
        | zero => simp
        | succ j =>
          have hj : j < rest.length := by simpa using hi
          have := ih k' d hd j hj
          simp only [List.getD_cons_succ, List.take_succ_cons, List.sum_cons]
          rw [this]
          have hik : j + 1 < k' + 1 ↔ j < k' := by omega
          by_cases hb : (rest.getD j none).isSome
          · simp only [if_pos hb, hik]
            congr 1
            omega
          · simp only [if_neg hb]

theorem bump_length (l : List Int) (i : Nat) : (bump l i).length = l.length := by
  simp [bump]

theorem bump_sum_le (l : List Int) : ∀ i : Nat, (bump l i).sum ≤ l.sum + 1 := by
  induction l with
  | nil => intro i; simp [bump]
  | cons a rest ih =>
    intro i
    cases i with
    | zero =>
      simp only [bump, List.getD_cons_zero, List.set_cons_zero, List.sum_cons]
      omega
    | succ j =>
      have := ih j
      simp only [bump, List.getD_cons_succ, List.set_cons_succ, List.sum_cons] at *
      omega

theorem bump_mem_nonneg (l : List Int) :
    ∀ i : Nat, (∀ x ∈ l, 0 ≤ x) → ∀ x ∈ bump l i, 0 ≤ x := by
  induction l with
  | nil => intro i _ x hx; simp [bump] at hx
  | cons a rest ih =>
    intro i h x hx
    cases i with
    | zero =>
      simp only [bump, List.getD_cons_zero, List.set_cons_zero, List.mem_cons] at hx
      rcases hx with h0 | h0
      · have := h a (by simp)
        omega
      · exact h x (List.mem_cons_of_mem _ h0)
    | succ j =>
      simp only [bump, List.getD_cons_succ, List.set_cons_succ, List.mem_cons] at hx
      rcases hx with h0 | h0
      · exact h x (h0 ▸ List.mem_cons_self _ _)
      · exact ih j (fun y hy => h y (List.mem_cons_of_mem _ hy)) x h0

theorem spill_length (elig : List Nat) :
    ∀ (fuel : Nat) (alloc : List Int) (idx : Nat),
      (spill alloc elig idx fuel).length = alloc.length := by
  intro fuel
  induction fuel with
  | zero => intro alloc idx; rfl
  | succ f ih =>
    intro alloc idx
    by_cases he : elig.isEmpty
    · simp [spill, he]
    · simp only [spill, if_neg he]
      rw [ih, bump_length]

theorem spill_sum_le (elig : List Nat) :
    ∀ (fuel : Nat) (alloc : List Int) (idx : Nat),
      (spill alloc elig idx fuel).sum ≤ alloc.sum + fuel := by
  intro fuel
  induction fuel with
  | zero => intro alloc idx; simp [spill]
  | succ f ih =>
    intro alloc idx
    by_cases he : elig.isEmpty
    · simp only [spill, if_pos he]
      omega
    · simp only [spill, if_neg he]
      have h1 := ih (bump alloc (elig.getD (idx % elig.length) 0)) (idx + 1)
      have h2 := bump_sum_le alloc (elig.getD (idx % elig.length) 0)
      push_cast
      omega

theorem spill_mem_nonneg (elig : List Nat) :
    ∀ (fuel : Nat) (alloc : List Int) (idx : Nat),
      (∀ x ∈ alloc, 0 ≤ x) → ∀ x ∈ spill alloc elig idx fuel, 0 ≤ x := by
  intro fuel
  induction fuel with
  | zero => intro alloc idx h; exact h
  | succ f ih =>
    intro alloc idx h
    by_cases he : elig.isEmpty
    · simp only [spill, if_pos he]
      exact h
    · simp only [spill, if_neg he]
      exact ih _ _ (bump_mem_nonneg alloc _ h)

theorem quota_alloc_length (l : List (Option Nat)) (d0 : Int) :
    (quota_alloc l d0).length = l.length := by
  unfold quota_alloc
  by_cases h : 0 < (quota_pass l 15 d0).2
  · simp only [if_pos h]
    rw [spill_length, quota_pass_length]
  · simp only [if_neg h]
    exact quota_pass_length l 15 d0

theorem quota_alloc_sum_le (l : List (Option Nat)) (d0 : Int) (hd : 0 ≤ d0) :
    (quota_alloc l d0).sum ≤ d0 := by
  unfold quota_alloc
  obtain ⟨hsum, hnn⟩ := quota_pass_sum l 15 d0 hd
  by_cases h : 0 < (quota_pass l 15 d0).2
  · simp only [if_pos h]
    have h1 := spill_sum_le (eligible_idxs l) (quota_pass l 15 d0).2.toNat
      (quota_pass l 15 d0).1 0
    rw [Int.toNat_of_nonneg hnn] at h1
    omega
  · simp only [if_neg h]
    omega

theorem quota_alloc_mem_nonneg (l : List (Option Nat)) (d0 : Int) (hd : 0 ≤ d0) :
    ∀ x ∈ quota_alloc l d0, 0 ≤ x := by
  unfold quota_alloc
  by_cases h : 0 < (quota_pass l 15 d0).2
  · simp only [if_pos h]
    exact spill_mem_nonneg _ _ _ _ (quota_pass_mem_nonneg l 15 d0 hd)
  · simp only [if_neg h]
    exact quota_pass_mem_nonneg l 15 d0 hd

/-!
## Lemmas about the code-selection phase
-/

theorem find_code_some {iter : List IterEntry} {pidx : Nat} {used : List String}
    {ledger : List Entry} {tg : Nat} {idx : Nat}
    (h : find_code iter pidx used ledger tg = some idx) :
    idx < iter.length ∧ 0 < (iter.getD idx ⟨"", 0⟩).remaining ∧
      used.contains (iter.getD idx ⟨"", 0⟩).code = false ∧
      user_already_has_code ledger tg (iter.getD idx ⟨"", 0⟩).code = false := by
  unfold find_code at h
  rw [Option.map_eq_some'] at h
  obtain ⟨off, hfind, hidx⟩ := h
  have hmem := List.mem_of_find?_eq_some hfind
  rw [List.mem_range] at hmem
  have hlen : 0 < iter.length := by omega
  have hpred := List.find?_some hfind
  simp only [Bool.and_eq_true, Bool.not_eq_true', decide_eq_true_eq] at hpred
  rw [hidx] at hpred
  exact ⟨hidx ▸ Nat.mod_lt _ hlen, hpred.1.1, hpred.1.2, hpred.2⟩


theorem count_one (a b : String) : List.count a [b] = if a = b then 1 else 0 := by
  by_cases h : a = b
  · subst h
    simp
  · rw [if_neg h]
    simp [List.count_cons, List.count_nil, Ne.symm h]

theorem codes_ne_of_nodup {iter : List IterEntry} (hnd : (codes_of iter).Nodup)
    {i j : Nat} (hi : i < iter.length) (hj : j < iter.length) (hne : i ≠ j) :
    (iter.getD i ⟨"", 0⟩).code ≠ (iter.getD j ⟨"", 0⟩).code := by
  rw [List.getD_eq_getElem _ _ hi, List.getD_eq_getElem _ _ hj]
  intro habs
  have hi2 : i < (codes_of iter).length := by simpa [codes_of] using hi
  have hj2 : j < (codes_of iter).length := by simpa [codes_of] using hj
  have h1 : (codes_of iter).get ⟨i, hi2⟩ = (codes_of iter).get ⟨j, hj2⟩ := by
    simpa [codes_of, List.getElem_map] using habs
  rw [List.get_eq_getElem, List.get_eq_getElem] at h1
  exact hne ((List.Nodup.getElem_inj_iff hnd).1 h1)

theorem pick_codes_spec (ledger : List Entry) (tg : Nat) :
    ∀ (cnt : Nat) (iter : List IterEntry) (pidx : Nat) (acc : List String),
      (codes_of iter).Nodup →
      (∀ e ∈ iter, 0 ≤ e.remaining) →
      codes_of (pick_codes ledger tg cnt iter pidx acc).2.1 = codes_of iter ∧
      (∀ e ∈ (pick_codes ledger tg cnt iter pidx acc).2.1, 0 ≤ e.remaining) ∧
      (∀ i, i < iter.length →
        ((pick_codes ledger tg cnt iter pidx acc).2.1.getD i ⟨"", 0⟩).remaining
            + ((pick_codes ledger tg cnt iter pidx acc).1.count
                (iter.getD i ⟨"", 0⟩).code : Int)
          = (iter.getD i ⟨"", 0⟩).remaining
            + (acc.count (iter.getD i ⟨"", 0⟩).code : Int)) ∧
      (∀ c, c ∉ codes_of iter →
        (pick_codes ledger tg cnt iter pidx acc).1.count c = acc.count c) := by
  intro cnt
  induction cnt with
  | zero =>
    intro iter pidx acc hnd hnn
    exact ⟨rfl, hnn, fun i _ => rfl, fun c _ => rfl⟩
  | succ n ih =>
    intro iter pidx acc hnd hnn
    cases hf : find_code iter pidx acc ledger tg with
    | none =>
      have hstep : pick_codes ledger tg (n + 1) iter pidx acc = (acc, iter, pidx) := by
        simp only [pick_codes, hf]
      rw [hstep]
      exact ⟨rfl, hnn, fun i _ => rfl, fun c _ => rfl⟩
    | some idx =>
      obtain ⟨hlt, hrem, hused, hledg⟩ := find_code_some hf
      have hstep : pick_codes ledger tg (n + 1) iter pidx acc =
          pick_codes ledger tg n
            (iter.set idx ⟨(iter.getD idx ⟨"", 0⟩).code,
              (iter.getD idx ⟨"", 0⟩).remaining - 1⟩)
            idx (acc ++ [(iter.getD idx ⟨"", 0⟩).code]) := by
        simp only [pick_codes, hf]
      have hgetE : iter.getD idx ⟨"", 0⟩ = iter[idx] := List.getD_eq_getElem _ _ hlt
      have hcode2 : ∀ j, j < iter.length →
          ((iter.set idx ⟨(iter.getD idx ⟨"", 0⟩).code,
              (iter.getD idx ⟨"", 0⟩).remaining - 1⟩).getD j ⟨"", 0⟩).code
            = (iter.getD j ⟨"", 0⟩).code := by
        intro j hj
        rw [List.getD_eq_getElem _ _ (by simpa using hj), List.getD_eq_getElem _ _ hj,
          List.getElem_set]
        split
        case isTrue h =>
          subst h
          rw [hgetE]
        case isFalse h => rfl
      have hcodes2 : codes_of (iter.set idx ⟨(iter.getD idx ⟨"", 0⟩).code,
          (iter.getD idx ⟨"", 0⟩).remaining - 1⟩) = codes_of iter := by
        unfold codes_of
        apply List.ext_getElem
        · simp
        · intro j h1 h2
          have hj : j < iter.length := by simpa using h2
          simp only [List.getElem_map]
          have h3 := hcode2 j hj
          rwa [List.getD_eq_getElem _ _ (by simpa using hj),
            List.getD_eq_getElem _ _ hj] at h3
      have hnn2 : ∀ x ∈ iter.set idx ⟨(iter.getD idx ⟨"", 0⟩).code,
          (iter.getD idx ⟨"", 0⟩).remaining - 1⟩, 0 ≤ x.remaining := by
        intro x hx
        rcases List.mem_or_eq_of_mem_set hx with h | h
        · exact hnn x h
        · rw [h]
          dsimp only
          omega
      have hnd2 : (codes_of (iter.set idx ⟨(iter.getD idx ⟨"", 0⟩).code,
          (iter.getD idx ⟨"", 0⟩).remaining - 1⟩)).Nodup := hcodes2 ▸ hnd
      obtain ⟨ihc, ihn, iheq, ihout⟩ := ih
        (iter.set idx ⟨(iter.getD idx ⟨"", 0⟩).code,
          (iter.getD idx ⟨"", 0⟩).remaining - 1⟩)
        idx (acc ++ [(iter.getD idx ⟨"", 0⟩).code]) hnd2 hnn2
      have hememb : (iter.getD idx ⟨"", 0⟩).code ∈ codes_of iter := by
        rw [hgetE]
        exact List.mem_map_of_mem _ (iter.getElem_mem hlt)
      rw [hstep]
      refine ⟨ihc.trans hcodes2, ihn, ?_, ?_⟩
      · intro i hi
        have hi2 : i < (iter.set idx ⟨(iter.getD idx ⟨"", 0⟩).code,
            (iter.getD idx ⟨"", 0⟩).remaining - 1⟩).length := by simpa using hi
        have heq := iheq i hi2
        rw [hcode2 i hi] at heq
        have hrem2 : ((iter.set idx ⟨(iter.getD idx ⟨"", 0⟩).code,
              (iter.getD idx ⟨"", 0⟩).remaining - 1⟩).getD i ⟨"", 0⟩).remaining
            = (iter.getD i ⟨"", 0⟩).remaining - (if idx = i then 1 else 0) := by
          by_cases h : idx = i
          · subst h
            rw [List.getD_eq_getElem _ _ hi2, List.getElem_set]
            simp
          · rw [List.getD_eq_getElem _ _ hi2, List.getD_eq_getElem _ _ hi,
              List.getElem_set, if_neg h, if_neg h]
            omega
        have hcnt : (acc ++ [(iter.getD idx ⟨"", 0⟩).code]).count
              (iter.getD i ⟨"", 0⟩).code
            = acc.count (iter.getD i ⟨"", 0⟩).code + (if idx = i then 1 else 0) := by
          rw [List.count_append]
          congr 1
          rw [count_one]
          by_cases h : idx = i
          · rw [if_pos (by rw [h]), if_pos h]
          · rw [if_neg (fun habs => (codes_ne_of_nodup hnd hi hlt (Ne.symm h)) habs),
              if_neg h]
        rw [hrem2, hcnt] at heq
        push_cast at heq ⊢
        omega
      · intro c hc
        rw [ihout c (by rwa [hcodes2]), List.count_append, count_one,
          if_neg (by
            intro habs
            exact hc (habs.symm ▸ hememb))]
        omega

theorem codes_of_getD {l1 l2 : List IterEntry} (h : codes_of l1 = codes_of l2) (i : Nat) :
    (l1.getD i ⟨"", 0⟩).code = (l2.getD i ⟨"", 0⟩).code := by
  have hlen : l1.length = l2.length := by
    have := congrArg List.length h
    simpa [codes_of] using this
  rcases lt_or_le i l1.length with hi | hi
  · rw [List.getD_eq_getElem _ _ hi, List.getD_eq_getElem _ _ (hlen ▸ hi)]
    have h2 := List.getElem_of_eq h (i := i) (by simpa [codes_of] using hi)
    simpa [codes_of, List.getElem_map] using h2
  · rw [List.getD_eq_default _ _ hi, List.getD_eq_default _ _ (by omega)]

theorem codes_of_length {l1 l2 : List IterEntry} (h : codes_of l1 = codes_of l2) :
    l1.length = l2.length := by
  have := congrArg List.length h
  simpa [codes_of] using this

theorem pick_codes_len (ledger : List Entry) (tg : Nat) :
    ∀ (cnt : Nat) (iter : List IterEntry) (pidx : Nat) (acc : List String),
      (pick_codes ledger tg cnt iter pidx acc).1.length ≤ acc.length + cnt := by
  intro cnt
  induction cnt with
  | zero => intro iter pidx acc; simp [pick_codes]
  | succ n ih =>
    intro iter pidx acc
    cases hf : find_code iter pidx acc ledger tg with
    | none =>
      simp only [pick_codes, hf]
      omega
    | some idx =>
      simp only [pick_codes, hf]
      have := ih (iter.set idx ⟨(iter.getD idx ⟨"", 0⟩).code,
        (iter.getD idx ⟨"", 0⟩).remaining - 1⟩) idx (acc ++ [(iter.getD idx ⟨"", 0⟩).code])
      simp only [List.length_append, List.length_singleton] at this
      omega

theorem pick_codes_good (ledger : List Entry) (tg : Nat) :
    ∀ (cnt : Nat) (iter : List IterEntry) (pidx : Nat) (acc : List String),
      acc.Nodup → (∀ c ∈ acc, user_already_has_code ledger tg c = false) →
      (pick_codes ledger tg cnt iter pidx acc).1.Nodup ∧
      ∀ c ∈ (pick_codes ledger tg cnt iter pidx acc).1,
        user_already_has_code ledger tg c = false := by
  intro cnt
  induction cnt with
  | zero => intro iter pidx acc h1 h2; exact ⟨h1, h2⟩
  | succ n ih =>
    intro iter pidx acc h1 h2
    cases hf : find_code iter pidx acc ledger tg with
    | none =>
      simp only [pick_codes, hf]
      exact ⟨h1, h2⟩
    | some idx =>
      obtain ⟨hlt, hrem, hused, hledg⟩ := find_code_some hf
      simp only [pick_codes, hf]
      apply ih
      · have hnm : (iter.getD idx ⟨"", 0⟩).code ∉ acc := by simpa using hused
        rw [List.nodup_append]
        refine ⟨h1, List.nodup_singleton _, fun a ha hb => ?_⟩
        rw [List.mem_singleton] at hb
        exact hnm (hb ▸ ha)
      · intro c hc
        rcases List.mem_append.1 hc with h | h
        · exact h2 c h
        · rw [List.mem_singleton.1 h]
          exact hledg

theorem upsert_unit_count (c : String) :
    ∀ (plan : List (Nat × List String)) (tg : Nat) (codes : List String),
      unit_count c (upsert plan tg codes) = unit_count c plan + codes.count c := by
  intro plan
  induction plan with
  | nil => intro tg codes; simp [upsert, unit_count]
  | cons e rest ih =>
    intro tg codes
    by_cases h : e.1 == tg
    · simp only [upsert, if_pos h, unit_count, List.map_cons, List.sum_cons,
        List.count_append]
      omega
    · simp only [upsert, if_neg h, unit_count, List.map_cons, List.sum_cons]
      have := ih tg codes
      simp only [unit_count] at this
      omega

theorem upsert_plan_len :
    ∀ (plan : List (Nat × List String)) (tg : Nat) (codes : List String),
      plan_len (upsert plan tg codes) = plan_len plan + codes.length := by
  intro plan
  induction plan with
  | nil => intro tg codes; simp [upsert, plan_len]
  | cons e rest ih =>
    intro tg codes
    by_cases h : e.1 == tg
    · simp only [upsert, if_pos h, plan_len, List.map_cons, List.sum_cons,
        List.length_append]
      omega
    · simp only [upsert, if_neg h, plan_len, List.map_cons, List.sum_cons]
      have := ih tg codes
      simp only [plan_len] at this
      omega

theorem upsert_of_fresh :
    ∀ (plan : List (Nat × List String)) (tg : Nat) (codes : List String),
      (∀ e ∈ plan, e.1 ≠ tg) → upsert plan tg codes = plan ++ [(tg, codes)] := by
  intro plan
  induction plan with
  | nil => intro tg codes _; rfl
  | cons e rest ih =>
    intro tg codes h
    have hne : ¬ (e.1 == tg) := by
      simpa using h e (List.mem_cons_self _ _)
    simp only [upsert, if_neg hne, List.cons_append]
    rw [ih tg codes (fun x hx => h x (List.mem_cons_of_mem _ hx))]

theorem select_codes_spec (ledger : List Entry) :
    ∀ (slots : List (Option Nat × Int)) (iter : List IterEntry) (pidx : Nat)
      (plan : List (Nat × List String)),
      (codes_of iter).Nodup →
      (∀ e ∈ iter, 0 ≤ e.remaining) →
      codes_of (select_codes ledger slots iter pidx plan).2.1 = codes_of iter ∧
      (∀ e ∈ (select_codes ledger slots iter pidx plan).2.1, 0 ≤ e.remaining) ∧
      (∀ i, i < iter.length →
        ((select_codes ledger slots iter pidx plan).2.1.getD i ⟨"", 0⟩).remaining
            + (unit_count (iter.getD i ⟨"", 0⟩).code
                (select_codes ledger slots iter pidx plan).1 : Int)
          = (iter.getD i ⟨"", 0⟩).remaining
            + (unit_count (iter.getD i ⟨"", 0⟩).code plan : Int)) ∧
      (∀ c, c ∉ codes_of iter →
        unit_count c (select_codes ledger slots iter pidx plan).1 = unit_count c plan) := by
  intro slots
  induction slots with
  | nil =>
    intro iter pidx plan hnd hnn
    exact ⟨rfl, hnn, fun i _ => rfl, fun c _ => rfl⟩
  | cons sc rest ih =>
    intro iter pidx plan hnd hnn
    obtain ⟨o, cnt⟩ := sc
    cases o with
    | none =>
      simp only [select_codes]
      exact ih iter pidx plan hnd hnn
    | some tg =>
      by_cases hcnt : cnt ≤ 0
      · simp only [select_codes, if_pos hcnt]
        exact ih iter pidx plan hnd hnn
      · obtain ⟨pc, pn, peq, pout⟩ :=
          pick_codes_spec ledger tg cnt.toNat iter pidx [] hnd hnn
        have hnd2 : (codes_of (pick_codes ledger tg cnt.toNat iter pidx []).2.1).Nodup :=
          pc ▸ hnd
        have hlen2 := codes_of_length pc
        by_cases hemp : (pick_codes ledger tg cnt.toNat iter pidx []).1.isEmpty
        · have hnil : (pick_codes ledger tg cnt.toNat iter pidx []).1 = [] :=
            List.isEmpty_iff.1 hemp
          simp only [select_codes, if_neg hcnt, if_pos hemp]
          obtain ⟨ic, inn, ieq, iout⟩ := ih (pick_codes ledger tg cnt.toNat iter pidx []).2.1
            (pick_codes ledger tg cnt.toNat iter pidx []).2.2 plan hnd2 pn
          refine ⟨ic.trans pc, inn, ?_, ?_⟩
          · intro i hi
            have hi2 : i < (pick_codes ledger tg cnt.toNat iter pidx []).2.1.length := by
              omega
            have h1 := ieq i hi2
            rw [codes_of_getD pc i] at h1
            have h2 := peq i hi
            rw [hnil] at h2
            simp only [List.count_nil] at h2
            push_cast at h1 h2 ⊢
            omega
          · intro c hc
            exact iout c (by rwa [pc])
        · simp only [select_codes, if_neg hcnt, if_neg hemp]
          obtain ⟨ic, inn, ieq, iout⟩ := ih (pick_codes ledger tg cnt.toNat iter pidx []).2.1
            (pick_codes ledger tg cnt.toNat iter pidx []).2.2
            (upsert plan tg (pick_codes ledger tg cnt.toNat iter pidx []).1) hnd2 pn
          refine ⟨ic.trans pc, inn, ?_, ?_⟩
          · intro i hi
            have hi2 : i < (pick_codes ledger tg cnt.toNat iter pidx []).2.1.length := by
              omega
            have h1 := ieq i hi2
            rw [codes_of_getD pc i] at h1
            have h2 := peq i hi
            simp only [List.count_nil] at h2
            have h3 := upsert_unit_count ((iter.getD i ⟨"", 0⟩).code) plan tg
              (pick_codes ledger tg cnt.toNat iter pidx []).1
            push_cast at h1 h2 h3 ⊢
            omega
          · intro c hc
            rw [iout c (by rwa [pc]), upsert_unit_count, pout c hc]
            simp

theorem select_codes_len (ledger : List Entry) :
    ∀ (slots : List (Option Nat × Int)) (iter : List IterEntry) (pidx : Nat)
      (plan : List (Nat × List String)),
      plan_len (select_codes ledger slots iter pidx plan).1
        ≤ plan_len plan + (slots.map (fun sc => sc.2.toNat)).sum := by
  intro slots
  induction slots with
  | nil => intro iter pidx plan; simp [select_codes]
  | cons sc rest ih =>
    intro iter pidx plan
    obtain ⟨o, cnt⟩ := sc
    cases o with
    | none =>
      simp only [select_codes, List.map_cons, List.sum_cons]
      have := ih iter pidx plan
      omega
    | some tg =>
      by_cases hcnt : cnt ≤ 0
      · simp only [select_codes, if_pos hcnt, List.map_cons, List.sum_cons]
        have := ih iter pidx plan
        omega
      · by_cases hemp : (pick_codes ledger tg cnt.toNat iter pidx []).1.isEmpty
        · simp only [select_codes, if_neg hcnt, if_pos hemp, List.map_cons, List.sum_cons]
          have := ih (pick_codes ledger tg cnt.toNat iter pidx []).2.1
            (pick_codes ledger tg cnt.toNat iter pidx []).2.2 plan
          omega
        · simp only [select_codes, if_neg hcnt, if_neg hemp, List.map_cons, List.sum_cons]
          have h1 := ih (pick_codes ledger tg cnt.toNat iter pidx []).2.1
            (pick_codes ledger tg cnt.toNat iter pidx []).2.2
            (upsert plan tg (pick_codes ledger tg cnt.toNat iter pidx []).1)
          have h2 := upsert_plan_len plan tg (pick_codes ledger tg cnt.toNat iter pidx []).1
          have h3 := pick_codes_len ledger tg cnt.toNat iter pidx []
          simp only [List.length_nil] at h3
          omega

theorem select_codes_good (ledger : List Entry) :
    ∀ (slots : List (Option Nat × Int)) (iter : List IterEntry) (pidx : Nat)
      (plan : List (Nat × List String)),
      (slots.filterMap (fun sc => sc.1)).Nodup →
      (∀ e ∈ plan, (some e.1) ∉ slots.map (fun sc => sc.1)) →
      (∀ e ∈ plan, e.2.Nodup ∧
        ∀ c ∈ e.2, user_already_has_code ledger e.1 c = false) →
      ∀ e ∈ (select_codes ledger slots iter pidx plan).1, e.2.Nodup ∧
        ∀ c ∈ e.2, user_already_has_code ledger e.1 c = false := by
  intro slots
  induction slots with
  | nil => intro iter pidx plan _ _ hgood; exact hgood
  | cons sc rest ih =>
    intro iter pidx plan hnd hdisj hgood
    obtain ⟨o, cnt⟩ := sc
    cases o with
    | none =>
      simp only [select_codes]
      refine ih iter pidx plan (by simpa using hnd) ?_ hgood
      intro e he
      have := hdisj e he
      simp only [List.map_cons, List.mem_cons] at this
      intro hmem
      exact this (Or.inr hmem)
    | some tg =>
      have hcons : (tg :: rest.filterMap (fun sc => sc.1)).Nodup := by
        simpa only [List.filterMap_cons] using hnd
      have hnd' : (rest.filterMap (fun sc => sc.1)).Nodup := (List.nodup_cons.1 hcons).2
      have htg : tg ∉ rest.filterMap (fun sc => sc.1) := (List.nodup_cons.1 hcons).1
      have hdisj' : ∀ e ∈ plan, (some e.1) ∉ rest.map (fun sc => sc.1) := by
        intro e he hmem
        have := hdisj e he
        simp only [List.map_cons, List.mem_cons] at this
        exact this (Or.inr hmem)
      by_cases hcnt : cnt ≤ 0
      · simp only [select_codes, if_pos hcnt]
        exact ih iter pidx plan hnd' hdisj' hgood
      · by_cases hemp : (pick_codes ledger tg cnt.toNat iter pidx []).1.isEmpty
        · simp only [select_codes, if_neg hcnt, if_pos hemp]
          exact ih _ _ plan hnd' hdisj' hgood
        · simp only [select_codes, if_neg hcnt, if_neg hemp]
          have hfresh : ∀ e ∈ plan, e.1 ≠ tg := by
            intro e he habs
            have := hdisj e he
            simp only [List.map_cons, List.mem_cons] at this
            exact this (Or.inl (by rw [habs]))
          rw [upsert_of_fresh plan tg _ hfresh]
          obtain ⟨hpnd, hpf⟩ := pick_codes_good ledger tg cnt.toNat iter pidx []
            (List.nodup_nil) (by intro c hc; simp at hc)
          refine ih _ _ _ hnd' ?_ ?_
          · intro e he
            rcases List.mem_append.1 he with h | h
            · exact hdisj' e h
            · rw [List.mem_singleton.1 h]
              intro hmem
              simp only [List.mem_map] at hmem
              obtain ⟨sc', hsc', hval⟩ := hmem
              exact htg (List.mem_filterMap.2 ⟨sc', hsc', hval⟩)
          · intro e he
            rcases List.mem_append.1 he with h | h
            · exact hgood e h
            · rw [List.mem_singleton.1 h]
              exact ⟨hpnd, hpf⟩

theorem compute_allocation_eq (positions : List (Option Nat)) (promos : List Promo)
    (reserve : Int) (ledger : List Entry) :
    compute_allocation_ordered positions promos reserve ledger = [] ∨
    (0 < total_available promos - reserve ∧
      compute_allocation_ordered positions promos reserve ledger
        = (select_codes ledger
            (positions.zip (quota_alloc positions (total_available promos - reserve)))
            ((promos.filter (fun q => decide (0 < remaining q))).map
              (fun q => IterEntry.mk q.code (remaining q))) 0 []).1) := by
  unfold compute_allocation_ordered
  by_cases h1 : positions.isEmpty
  · left
    simp [h1]
  · by_cases h2 : total_available promos - reserve ≤ 0
    · left
      simp [h1, h2]
    · by_cases h3 : (((promos.filter (fun q => decide (0 < remaining q))).map
          (fun q => IterEntry.mk q.code (remaining q))).isEmpty)
      · left
        simp [h1, h2, h3]
      · right
        refine ⟨by omega, ?_⟩
        simp [h1, h2, h3]

theorem codes_of_promo_iter (promos : List Promo) :
    codes_of ((promos.filter (fun q => decide (0 < remaining q))).map
        (fun q => IterEntry.mk q.code (remaining q)))
      = (promos.filter (fun q => decide (0 < remaining q))).map (fun q => q.code) := by
  unfold codes_of
  rw [List.map_map]
  rfl

theorem promo_iter_nodup (promos : List Promo)
    (hnd : (promos.map (fun q => q.code)).Nodup) :
    (codes_of ((promos.filter (fun q => decide (0 < remaining q))).map
        (fun q => IterEntry.mk q.code (remaining q)))).Nodup := by
  rw [codes_of_promo_iter]
  exact List.Nodup.sublist (List.Sublist.map _ (List.filter_sublist _)) hnd

theorem promo_iter_nonneg (promos : List Promo) :
    ∀ e ∈ (promos.filter (fun q => decide (0 < remaining q))).map
        (fun q => IterEntry.mk q.code (remaining q)), 0 ≤ e.remaining := by
  intro e he
  simp only [List.mem_map] at he
  obtain ⟨q, hq, rfl⟩ := he
  have := (List.mem_filter.1 hq).2
  simp only [decide_eq_true_eq] at this
  dsimp only
  omega

theorem compute_allocation_count (positions : List (Option Nat)) (promos : List Promo)
    (reserve : Int) (ledger : List Entry)
    (hnd : (promos.map (fun q => q.code)).Nodup) :
    ∀ p ∈ promos,
      (unit_count p.code (compute_allocation_ordered positions promos reserve ledger) : Int)
        ≤ max 0 (remaining p) := by
  intro p hp
  rcases compute_allocation_eq positions promos reserve ledger with h | ⟨_, h⟩
  · rw [h]
    simp only [unit_count, List.map_nil, List.sum_nil, Nat.cast_zero]
    exact le_max_left 0 _
  · rw [h]
    obtain ⟨sc, sn, seq, sout⟩ := select_codes_spec ledger
      (positions.zip (quota_alloc positions (total_available promos - reserve)))
      ((promos.filter (fun q => decide (0 < remaining q))).map
        (fun q => IterEntry.mk q.code (remaining q))) 0 []
      (promo_iter_nodup promos hnd) (promo_iter_nonneg promos)
    by_cases hrp : 0 < remaining p
    · have hpf : p ∈ promos.filter (fun q => decide (0 < remaining q)) :=
        List.mem_filter.2 ⟨hp, by simpa using hrp⟩
      obtain ⟨i, hilt, hieq⟩ := List.mem_iff_getElem.1 hpf
      have hiter_i : i < ((promos.filter (fun q => decide (0 < remaining q))).map
          (fun q => IterEntry.mk q.code (remaining q))).length := by simpa using hilt
      have hgd : (((promos.filter (fun q => decide (0 < remaining q))).map
          (fun q => IterEntry.mk q.code (remaining q))).getD i ⟨"", 0⟩)
            = IterEntry.mk p.code (remaining p) := by
        rw [List.getD_eq_getElem _ _ hiter_i, List.getElem_map, hieq]
      have heq := seq i hiter_i
      rw [hgd] at heq
      dsimp only at heq
      have hfin_len := codes_of_length sc
      have hi' : i < (select_codes ledger
          (positions.zip (quota_alloc positions (total_available promos - reserve)))
          ((promos.filter (fun q => decide (0 < remaining q))).map
            (fun q => IterEntry.mk q.code (remaining q))) 0 []).2.1.length := by omega
      have hfnn : 0 ≤ ((select_codes ledger
          (positions.zip (quota_alloc positions (total_available promos - reserve)))
          ((promos.filter (fun q => decide (0 < remaining q))).map
            (fun q => IterEntry.mk q.code (remaining q))) 0 []).2.1.getD i ⟨"", 0⟩).remaining := by
        rw [List.getD_eq_getElem _ _ hi']
        exact sn _ (List.getElem_mem _)
      have hz : unit_count p.code ([] : List (Nat × List String)) = 0 := rfl
      rw [hz] at heq
      rw [max_eq_right hrp.le]
      push_cast at heq ⊢
      omega
    · have hnotin : p.code ∉ codes_of ((promos.filter (fun q => decide (0 < remaining q))).map
          (fun q => IterEntry.mk q.code (remaining q))) := by
        rw [codes_of_promo_iter]
        intro habs
        simp only [List.mem_map] at habs
        obtain ⟨q, hq, hqc⟩ := habs
        have hq1 := (List.mem_filter.1 hq).1
        have hq2 := (List.mem_filter.1 hq).2
        simp only [decide_eq_true_eq] at hq2
        have : q = p := List.inj_on_of_nodup_map hnd hq1 hp hqc
        rw [this] at hq2
        omega
      rw [sout p.code hnotin]
      have hz : unit_count p.code ([] : List (Nat × List String)) = 0 := rfl
      rw [hz]
      push_cast
      exact le_max_left 0 _

theorem zip_toNat_sum :
    ∀ (ps : List (Option Nat)) (al : List Int), ps.length = al.length →
      ((ps.zip al).map (fun sc => sc.2.toNat)).sum = (al.map Int.toNat).sum := by
  intro ps
  induction ps with
  | nil =>
    intro al h
    have : al = [] := List.length_eq_zero.1 h.symm
    subst this
    rfl
  | cons p ps ih =>
    intro al h
    cases al with
    | nil => simp at h
    | cons a al' =>
      simp only [List.zip_cons_cons, List.map_cons, List.sum_cons]
      rw [ih al' (by simpa using h)]

theorem toNat_sum_eq (al : List Int) (h : ∀ x ∈ al, 0 ≤ x) :
    ((al.map Int.toNat).sum : Int) = al.sum := by
  induction al with
  | nil => rfl
  | cons a rest ih =>
    simp only [List.map_cons, List.sum_cons, Nat.cast_add]
    rw [Int.toNat_of_nonneg (h a (List.mem_cons_self _ _)),
      ih (fun x hx => h x (List.mem_cons_of_mem _ hx))]

theorem compute_allocation_empty_of_nonpos (positions : List (Option Nat))
    (promos : List Promo) (reserve : Int) (ledger : List Entry)
    (hd : total_available promos - reserve ≤ 0) :
    compute_allocation_ordered positions promos reserve ledger = [] := by
  unfold compute_allocation_ordered
  by_cases h1 : positions.isEmpty
  · simp [h1]
  · simp [h1, hd]

theorem compute_allocation_len (positions : List (Option Nat)) (promos : List Promo)
    (reserve : Int) (ledger : List Entry) (hd : 0 ≤ total_available promos - reserve) :
    (plan_len (compute_allocation_ordered positions promos reserve ledger) : Int)
      ≤ total_available promos - reserve := by
  rcases compute_allocation_eq positions promos reserve ledger with h | ⟨_, h⟩
  · rw [h]
    simpa [plan_len] using hd
  · rw [h]
    have h1 := select_codes_len ledger
      (positions.zip (quota_alloc positions (total_available promos - reserve)))
      ((promos.filter (fun q => decide (0 < remaining q))).map
        (fun q => IterEntry.mk q.code (remaining q))) 0 []
    have hlen : positions.length
        = (quota_alloc positions (total_available promos - reserve)).length :=
      (quota_alloc_length positions _).symm
    rw [zip_toNat_sum _ _ hlen] at h1
    have h2 : (((quota_alloc positions (total_available promos - reserve)).map
        Int.toNat).sum : Int)
        = (quota_alloc positions (total_available promos - reserve)).sum :=
      toNat_sum_eq _ (quota_alloc_mem_nonneg positions _ hd)
    have h3 := quota_alloc_sum_le positions (total_available promos - reserve) hd
    have h4 : plan_len ([] : List (Nat × List String)) = 0 := rfl
    rw [h4] at h1
    simp only [Nat.zero_add] at h1
    have h5 : (plan_len (select_codes ledger
        (positions.zip (quota_alloc positions (total_available promos - reserve)))
        ((promos.filter (fun q => decide (0 < remaining q))).map
          (fun q => IterEntry.mk q.code (remaining q))) 0 []).1 : Int)
        ≤ (((quota_alloc positions (total_available promos - reserve)).map
            Int.toNat).sum : Int) := by
      exact_mod_cast h1
    omega

/-!
## Budget accounting for the issuance loop
-/

theorem sum_map_sub {α : Type} (l : List α) (f g : α → Int) :
    (l.map f).sum - (l.map g).sum = (l.map (fun x => f x - g x)).sum := by
  induction l with
  | nil => simp
  | cons a rest ih =>
    simp only [List.map_cons, List.sum_cons]
    omega

theorem sum_map_single {α : Type} [DecidableEq α] :
    ∀ (l : List α), l.Nodup → ∀ (f : α → Int) (q : α), q ∈ l →
      (∀ x ∈ l, x ≠ q → f x = 0) → (l.map f).sum = f q := by
  intro l
  induction l with
  | nil => intro _ f q hq; simp at hq
  | cons a rest ih =>
    intro hnd f q hq hz
    simp only [List.map_cons, List.sum_cons]
    rcases List.mem_cons.1 hq with h | h
    · subst h
      have : ∀ x ∈ rest, f x = 0 := by
        intro x hx
        exact hz x (List.mem_cons_of_mem _ hx)
          (fun habs => (List.nodup_cons.1 hnd).1 (habs ▸ hx))
      have hsum : (rest.map f).sum = 0 := by
        rw [List.sum_eq_zero]
        intro x hx
        simp only [List.mem_map] at hx
        obtain ⟨y, hy, rfl⟩ := hx
        exact this y hy
      omega
    · have ha : f a = 0 := hz a (List.mem_cons_self _ _)
        (fun habs => (List.nodup_cons.1 hnd).1 (habs ▸ h))
      rw [ha, ih (List.nodup_cons.1 hnd).2 f q h
        (fun x hx hne => hz x (List.mem_cons_of_mem _ hx) hne)]
      omega

theorem remaining_upd_used (k : String → Nat) (p : Promo) :
    remaining (upd_used k p) = remaining p - (k p.code : Int) := by
  simp only [remaining, upd_used]
  omega

theorem total_available_upd (P0 : List Promo) (k : String → Nat) :
    total_available (P0.map (upd_used k))
      = (P0.map (fun p => max 0 (remaining p - (k p.code : Int)))).sum := by
  unfold total_available
  rw [List.map_map]
  apply congrArg List.sum
  apply List.map_congr_left
  intro p _
  simp only [Function.comp_apply, remaining_upd_used]

theorem rem_map_some {promos : List Promo} {code : String} {pid : Nat} {r : Int}
    (h : rem_map promos code = some (pid, r)) :
    ∃ q ∈ promos, q.code = code ∧ q.pid = pid ∧ remaining q = r := by
  unfold rem_map at h
  rw [Option.map_eq_some'] at h
  obtain ⟨q, hfind, heq⟩ := h
  refine ⟨q, List.mem_of_find?_eq_some hfind, ?_, ?_, ?_⟩
  · have := List.find?_some hfind
    simpa using this
  · exact congrArg Prod.fst heq
  · exact congrArg Prod.snd heq

theorem run_units_budget (P0 : List Promo) (src : String)
    (hcodes : (P0.map (fun p => p.code)).Nodup)
    (hpids : (P0.map (fun p => p.pid)).Nodup) :
    ∀ (units : List (Nat × String)) (st : BotState) (k : String → Nat),
      st.promos = P0.map (upd_used k) →
      (∀ p ∈ P0, (k p.code : Int) + ((units.map (fun u => u.2)).count p.code : Int)
          ≤ max 0 (remaining p)) →
      ∃ k' : String → Nat,
        (run_units (rem_map P0) src units st).promos = P0.map (upd_used k') ∧
        (∀ p ∈ P0, (k' p.code : Int) ≤ max 0 (remaining p)) ∧
        total_available st.promos
            - total_available (run_units (rem_map P0) src units st).promos
          = ((run_units (rem_map P0) src units st).ledger.length : Int)
            - st.ledger.length := by
  intro units
  induction units with
  | nil =>
    intro st k hk hbound
    refine ⟨k, hk, ?_, by simp [run_units]⟩
    intro p hp
    have := hbound p hp
    simp only [List.map_nil, List.count_nil] at this
    omega
  | cons u rest ih =>
    intro st k hk hbound
    obtain ⟨tg, c⟩ := u
    cases hrm : rem_map P0 c with
    | none =>
      have hstep : run_units (rem_map P0) src ((tg, c) :: rest) st
          = run_units (rem_map P0) src rest st := by
        simp only [run_units, hrm]
      rw [hstep]
      apply ih st k hk
      intro p hp
      have h1 := hbound p hp
      simp only [List.map_cons, List.count_cons] at h1
      have h2 : ((rest.map (fun u => u.2)).count p.code : Int)
          ≤ (((tg, c) :: rest).map (fun u => u.2)).count p.code := by
        simp only [List.map_cons, List.count_cons]
        split <;> push_cast <;> omega
      omega
    | some pr =>
      obtain ⟨pid, r⟩ := pr
      have hcount_le : ∀ p ∈ P0, ((rest.map (fun u => u.2)).count p.code : Int)
          ≤ (((tg, c) :: rest).map (fun u => u.2)).count p.code := by
        intro p _
        simp only [List.map_cons, List.count_cons]
        split <;> push_cast <;> omega
      by_cases hr : r ≤ 0
      · have hstep : run_units (rem_map P0) src ((tg, c) :: rest) st
            = run_units (rem_map P0) src rest st := by
          simp only [run_units, hrm, if_pos hr]
        rw [hstep]
        apply ih st k hk
        intro p hp
        have h1 := hbound p hp
        have h2 := hcount_le p hp
        omega
      · by_cases hu : user_already_has_code st.ledger tg c
        · have hstep : run_units (rem_map P0) src ((tg, c) :: rest) st
              = run_units (rem_map P0) src rest st := by
            simp only [run_units, hrm, if_neg hr, if_pos hu]
          rw [hstep]
          apply ih st k hk
          intro p hp
          have h1 := hbound p hp
          have h2 := hcount_le p hp
          omega
        · -- the unit is actually issued
          have hstep : run_units (rem_map P0) src ((tg, c) :: rest) st
              = run_units (rem_map P0) src rest (issue_one st src tg c pid) := by
            simp only [run_units, hrm, if_neg hr, if_neg hu]
          rw [hstep]
          obtain ⟨q, hqmem, hqcode, hqpid, hqrem⟩ := rem_map_some hrm
          have hcq : (((tg, c) :: rest).map (fun u => u.2)).count q.code
              = (rest.map (fun u => u.2)).count q.code + 1 := by
            simp only [List.map_cons, List.count_cons, hqcode]
            simp
          -- the promos after this issuance are P0 updated by k + one unit of c
          have hk1 : (issue_one st src tg c pid).promos
              = P0.map (upd_used (fun x => if x = c then k x + 1 else k x)) := by
            simp only [issue_one, hk, List.map_map]
            apply List.map_congr_left
            intro p hp
            simp only [Function.comp_apply, upd_used]
            by_cases hpq : p.pid == pid
            · have hppid : p.pid = pid := by simpa using hpq
              have hpe : p = q := List.inj_on_of_nodup_map hpids hp hqmem
                (by rw [hppid, hqpid])
              have hpc : p.code = c := by rw [hpe, hqcode]
              rw [if_pos hpq]
              simp only [hpc, if_true]
              have harith : (p.used + (k c : Int) + 1 : Int)
                  = p.used + ((k c + 1 : Nat) : Int) := by
                push_cast
                ring
              rw [harith]
            · rw [if_neg hpq]
              have hpc : p.code ≠ c := by
                intro habs
                have hpe : p = q := List.inj_on_of_nodup_map hcodes hp hqmem
                  (habs.trans hqcode.symm)
                rw [hpe, hqpid] at hpq
                simp at hpq
              simp only [if_neg hpc]
          have hbound1 : ∀ p ∈ P0,
              ((fun x => if x = c then k x + 1 else k x) p.code : Int)
                + ((rest.map (fun u => u.2)).count p.code : Int)
              ≤ max 0 (remaining p) := by
            intro p hp
            have h1 := hbound p hp
            by_cases hpc : p.code = c
            · have h2 : (((tg, c) :: rest).map (fun u => u.2)).count p.code
                  = (rest.map (fun u => u.2)).count p.code + 1 := by
                simp only [List.map_cons, List.count_cons, hpc]
                simp
              rw [h2, hpc] at h1
              simp only [hpc, if_true]
              push_cast at h1 ⊢
              omega
            · simp only [if_neg hpc]
              have h2 := hcount_le p hp
              omega
          obtain ⟨k', hk', hbound', hdelta'⟩ :=
            ih (issue_one st src tg c pid) (fun x => if x = c then k x + 1 else k x)
              hk1 hbound1
          refine ⟨k', hk', hbound', ?_⟩
          -- one unit of budget is consumed by this issuance
          have hqbound := hbound q hqmem
          rw [hcq] at hqbound
          have hqpos : 0 < remaining q := by omega
          have hkc_lt : (k q.code : Int) < remaining q := by
            have : (0 : Int) ≤ ((rest.map (fun u => u.2)).count q.code : Int) := by
              positivity
            rw [max_eq_right hqpos.le] at hqbound
            push_cast at hqbound
            omega
          have hdelta1 : total_available st.promos
              - total_available (issue_one st src tg c pid).promos = 1 := by
            rw [hk, hk1, total_available_upd, total_available_upd, sum_map_sub]
            have hP0nd : P0.Nodup := List.Nodup.of_map _ hpids
            rw [sum_map_single P0 hP0nd _ q hqmem ?side]
            case side =>
              intro x hx hne
              have hxc : x.code ≠ c := by
                intro habs
                exact hne (List.inj_on_of_nodup_map hcodes hx hqmem
                  (habs.trans hqcode.symm))
              simp only [if_neg hxc]
              omega
            have hkc : (k c : Int) < remaining q := by
              rw [← hqcode]
              exact hkc_lt
            simp only [hqcode, if_true]
            push_cast
            rw [max_eq_right (by omega : (0 : Int) ≤ remaining q - (k c : Int)),
              max_eq_right (by omega : (0 : Int) ≤ remaining q - ((k c : Int) + 1))]
            omega
          have hlen1 : (issue_one st src tg c pid).ledger.length = st.ledger.length + 1 := by
            simp [issue_one]
          rw [hlen1] at hdelta'
          push_cast at hdelta' ⊢
          omega

theorem flat_units_count (c : String) :
    ∀ (plan : List (Nat × List String)),
      ((flat_units plan).map (fun u => u.2)).count c = unit_count c plan := by
  intro plan
  induction plan with
  | nil => rfl
  | cons e rest ih =>
    simp only [flat_units, List.map_cons, List.flatten_cons, List.map_append,
      List.count_append, List.map_map]
    simp only [flat_units] at ih
    rw [ih]
    simp only [unit_count, List.map_cons, List.sum_cons]
    have : (e.2.map ((fun u => u.2) ∘ fun c => (e.1, c))).count c = e.2.count c := by
      have h1 : ((fun (u : Nat × String) => u.2) ∘ fun c => (e.1, c)) = id := rfl
      rw [h1, List.map_id]
    omega

theorem map_upd_zero (P : List Promo) : P.map (upd_used (fun _ => 0)) = P := by
  have h : ∀ p ∈ P, upd_used (fun _ => 0) p = p := by
    intro p _
    obtain ⟨a, b, cc, d⟩ := p
    simp [upd_used]
  rw [List.map_congr_left h, List.map_id']

theorem run_plan_eq_units (src : String) (plan : List (Nat × List String)) (s : BotState) :
    run_plan src plan s = run_units (rem_map s.promos) src (flat_units plan) s := by
  unfold run_plan
  rw [run_plan_aux_eq_units]

theorem uahc_strip {l1 l2 : List Entry}
    (h : l1.map strip_source = l2.map strip_source) (tg : Nat) (c : String) :
    user_already_has_code l1 tg c = user_already_has_code l2 tg c := by
  have h1 : ∀ l : List Entry, user_already_has_code l tg c
      = (l.map strip_source).any (fun t => t.1 == tg && t.2.2 == c) := by
    intro l
    unfold user_already_has_code
    induction l with
    | nil => rfl
    | cons e rest ihl =>
      simp only [List.any_cons, List.map_cons]
      rw [ihl]
      rfl
  rw [h1, h1, h]

theorem run_units_src (rm : String → Option (Nat × Int)) (src1 src2 : String) :
    ∀ (units : List (Nat × String)) (s1 s2 : BotState),
      s1.promos = s2.promos →
      s1.ledger.map strip_source = s2.ledger.map strip_source →
      (run_units rm src1 units s1).promos = (run_units rm src2 units s2).promos ∧
      (run_units rm src1 units s1).ledger.map strip_source
        = (run_units rm src2 units s2).ledger.map strip_source := by
  intro units
  induction units with
  | nil => intro s1 s2 hp hl; exact ⟨hp, hl⟩
  | cons u rest ih =>
    intro s1 s2 hp hl
    obtain ⟨tg, c⟩ := u
    simp only [run_units]
    cases rm c with
    | none => exact ih s1 s2 hp hl
    | some pr =>
      obtain ⟨pid, r⟩ := pr
      by_cases hr : r ≤ 0
      · simp only [if_pos hr]
        exact ih s1 s2 hp hl
      · simp only [if_neg hr]
        rw [uahc_strip hl tg c]
        by_cases hu : user_already_has_code s2.ledger tg c
        · simp only [if_pos hu]
          exact ih s1 s2 hp hl
        · simp only [if_neg hu]
          apply ih
          · simp only [issue_one, hp]
          · simp only [issue_one, List.map_append, hl]
            rfl

theorem validate_codes_spec (promos : List Promo) (ledger : List Entry) (tg : Nat) :
    ∀ (parts : List String) (valid : List (Nat × String)),
      validate_codes promos ledger tg parts = some valid →
      valid.map (fun pc => pc.2) = parts ∧
      ∀ pc ∈ valid, ∃ q ∈ promos, q.code = pc.2 ∧ q.pid = pc.1 ∧ 0 < remaining q ∧
        user_already_has_code ledger tg pc.2 = false := by
  intro parts
  induction parts with
  | nil =>
    intro valid h
    simp only [validate_codes, Option.some.injEq] at h
    subst h
    exact ⟨rfl, by intro pc hpc; simp at hpc⟩
  | cons code rest ih =>
    intro valid h
    cases hf : promos.find? (fun p => p.code == code) with
    | none =>
      simp only [validate_codes, hf] at h
      exact Option.noConfusion h
    | some p =>
      simp only [validate_codes, hf] at h
      by_cases h1 : remaining p ≤ 0
      · rw [if_pos h1] at h
        simp at h
      · rw [if_neg h1] at h
        by_cases h2 : user_already_has_code ledger tg code
        · rw [if_pos h2] at h
          simp at h
        · rw [if_neg h2] at h
          rw [Option.map_eq_some'] at h
          obtain ⟨v, hv, hvv⟩ := h
          subst hvv
          obtain ⟨ha, hb⟩ := ih v hv
          refine ⟨by simp [ha], ?_⟩
          intro pc hpc
          rcases List.mem_cons.1 hpc with hh | hh
          · subst hh
            refine ⟨p, List.mem_of_find?_eq_some hf, ?_, rfl, by omega, ?_⟩
            · have := List.find?_some hf
              simpa using this
            · exact Bool.eq_false_iff.2 h2
          · exact hb pc hh

/-!
## Lemmas about the interactive issuance flow
-/

theorem gp_fold_ledger (give_type : String) (tg : Nat) :
    ∀ (valid : List (Nat × String)) (st : BotState),
      (valid.foldl (fun st pc =>
        { st with
          ledger := st.ledger ++ [⟨tg, pc.1, pc.2, give_type⟩],
          promos := st.promos.map (fun p => if p.pid == pc.1 then
            { p with used := p.used + 1 } else p) }) st).ledger
      = st.ledger ++ valid.map (fun pc => (⟨tg, pc.1, pc.2, give_type⟩ : Entry)) := by
  intro valid
  induction valid with
  | nil => intro st; simp
  | cons v rest ih =>
    intro st
    simp only [List.foldl_cons, List.map_cons]
    rw [ih]
    simp

theorem gp_fold_frame (give_type : String) (tg : Nat) :
    ∀ (valid : List (Nat × String)) (st : BotState),
      (valid.foldl (fun st pc =>
        { st with
          ledger := st.ledger ++ [⟨tg, pc.1, pc.2, give_type⟩],
          promos := st.promos.map (fun p => if p.pid == pc.1 then
            { p with used := p.used + 1 } else p) }) st).positions = st.positions ∧
      (valid.foldl (fun st pc =>
        { st with
          ledger := st.ledger ++ [⟨tg, pc.1, pc.2, give_type⟩],
          promos := st.promos.map (fun p => if p.pid == pc.1 then
            { p with used := p.used + 1 } else p) }) st).jobs = st.jobs ∧
      (valid.foldl (fun st pc =>
        { st with
          ledger := st.ledger ++ [⟨tg, pc.1, pc.2, give_type⟩],
          promos := st.promos.map (fun p => if p.pid == pc.1 then
            { p with used := p.used + 1 } else p) }) st).settings = st.settings := by
  intro valid
  induction valid with
  | nil => intro st; exact ⟨rfl, rfl, rfl⟩
  | cons v rest ih =>
    intro st
    simp only [List.foldl_cons]
    exact ih _

theorem gp_fold_promos (give_type : String) (tg : Nat) :
    ∀ (valid : List (Nat × String)) (st : BotState),
      (valid.map (fun pc => pc.1)).Nodup →
      (valid.foldl (fun st pc =>
        { st with
          ledger := st.ledger ++ [⟨tg, pc.1, pc.2, give_type⟩],
          promos := st.promos.map (fun p => if p.pid == pc.1 then
            { p with used := p.used + 1 } else p) }) st).promos
      = st.promos.map (fun p => if valid.any (fun pc => pc.1 == p.pid) then
          { p with used := p.used + 1 } else p) := by
  intro valid
  induction valid with
  | nil =>
    intro st _
    simp only [List.foldl_nil, List.any_nil]
    have : ∀ p ∈ st.promos,
        (if false = true then { p with used := p.used + 1 } else p) = p := by
      intro p _
      simp
    rw [List.map_congr_left this, List.map_id']
  | cons v rest ih =>
    intro st hnd
    have hnd' : (v.1 :: rest.map (fun pc => pc.1)).Nodup := by
      simpa only [List.map_cons] using hnd
    have hvtl : v.1 ∉ rest.map (fun pc => pc.1) := (List.nodup_cons.1 hnd').1
    have hrest : (rest.map (fun pc => pc.1)).Nodup := (List.nodup_cons.1 hnd').2
    simp only [List.foldl_cons]
    rw [ih _ hrest]
    rw [List.map_map]
    apply List.map_congr_left
    intro p _
    simp only [Function.comp_apply, List.any_cons]
    by_cases hp : p.pid == v.1
    · have hpe : p.pid = v.1 := by simpa using hp
      rw [if_pos hp]
      have hany : rest.any (fun pc => pc.1 == p.pid) = false := by
        rw [List.any_eq_false]
        intro pc hpc habs
        have h3 : pc.1 = p.pid := by simpa using habs
        exact hvtl (List.mem_map.2 ⟨pc, hpc, by rw [h3, hpe]⟩)
      have hhead : (v.1 == p.pid) = true := by simp [hpe]
      dsimp only
      simp only [hany, hhead, Bool.true_or, Bool.false_eq_true, if_false,
        eq_self_iff_true, if_true]
    · rw [if_neg hp]
      have hhead : (v.1 == p.pid) = false := by
        simp only [beq_eq_false_iff_ne, ne_eq]
        intro habs
        exact hp (by simp [habs])
      simp only [hhead, Bool.false_or]

theorem givepromo_cases (s : BotState) (tg : Nat) (gt : String) (qty : Nat)
    (parts : List String) :
    givepromo_codes_entered s tg gt qty parts = s ∨
    ∃ valid, validate_codes s.promos s.ledger tg parts = some valid ∧
      parts.Nodup ∧
      (givepromo_codes_entered s tg gt qty parts).ledger
        = (valid.foldl (fun st pc =>
            { st with
              ledger := st.ledger ++ [⟨tg, pc.1, pc.2, gt⟩],
              promos := st.promos.map (fun p => if p.pid == pc.1 then
                { p with used := p.used + 1 } else p) }) s).ledger ∧
      (givepromo_codes_entered s tg gt qty parts).promos
        = (valid.foldl (fun st pc =>
            { st with
              ledger := st.ledger ++ [⟨tg, pc.1, pc.2, gt⟩],
              promos := st.promos.map (fun p => if p.pid == pc.1 then
                { p with used := p.used + 1 } else p) }) s).promos ∧
      (givepromo_codes_entered s tg gt qty parts).positions = s.positions ∧
      (givepromo_codes_entered s tg gt qty parts).jobs = s.jobs := by
  by_cases h1 : parts.length ≠ qty
  · left
    unfold givepromo_codes_entered
    rw [if_pos h1]
  · by_cases h2 : ¬ parts.Nodup
    · left
      unfold givepromo_codes_entered
      rw [if_neg h1, if_pos h2]
    · cases hv : validate_codes s.promos s.ledger tg parts with
      | none =>
        left
        unfold givepromo_codes_entered
        rw [if_neg h1, if_neg h2, hv]
      | some valid =>
        right
        refine ⟨valid, rfl, not_not.1 h2, ?_, ?_, ?_, ?_⟩
        · unfold givepromo_codes_entered
          rw [if_neg h1, if_neg h2, hv]
          by_cases hres : (gt == "reserve") = true
          · simp only [hres, if_true]
          · simp only [hres, Bool.false_eq_true, if_false]
        · unfold givepromo_codes_entered
          rw [if_neg h1, if_neg h2, hv]
          by_cases hres : (gt == "reserve") = true
          · simp only [hres, if_true]
          · simp only [hres, Bool.false_eq_true, if_false]
        · unfold givepromo_codes_entered
          rw [if_neg h1, if_neg h2, hv]
          obtain ⟨hpos, hjobs, _⟩ := gp_fold_frame gt tg valid s
          by_cases hres : (gt == "reserve") = true
          · simp only [hres, if_true]
            exact hpos
          · simp only [hres, Bool.false_eq_true, if_false]
            exact hpos
        · unfold givepromo_codes_entered
          rw [if_neg h1, if_neg h2, hv]
          obtain ⟨hpos, hjobs, _⟩ := gp_fold_frame gt tg valid s
          by_cases hres : (gt == "reserve") = true
          · simp only [hres, if_true]
            exact hjobs
          · simp only [hres, Bool.false_eq_true, if_false]
            exact hjobs

theorem givepromo_uniq (s : BotState) (tg : Nat) (gt : String) (qty : Nat)
    (parts : List String) (h : UniqLedger s.ledger) :
    UniqLedger (givepromo_codes_entered s tg gt qty parts).ledger := by
  rcases givepromo_cases s tg gt qty parts with heq | ⟨valid, hv, hnd, hled, _, _, _⟩
  · rw [heq]
    exact h
  · rw [hled, gp_fold_ledger]
    obtain ⟨hmap, hspec⟩ := validate_codes_spec s.promos s.ledger tg parts valid hv
    unfold UniqLedger at h ⊢
    rw [List.map_append, List.nodup_append]
    refine ⟨h, ?_, ?_⟩
    · rw [List.map_map]
      have h1 : valid.map (entry_key ∘ (fun pc => (⟨tg, pc.1, pc.2, gt⟩ : Entry)))
          = (valid.map (fun pc => pc.2)).map (fun c => (tg, c)) := by
        rw [List.map_map]
        rfl
      rw [h1, hmap]
      apply List.Nodup.map ?_ hnd
      intro a b hab
      simpa using hab
    · intro key hkey hknew
      rw [List.map_map] at hknew
      simp only [List.mem_map, Function.comp_apply] at hknew
      obtain ⟨pc, hpc, hkeq⟩ := hknew
      obtain ⟨q, _, _, _, _, hfresh⟩ := hspec pc hpc
      rw [← hkeq] at hkey
      exact absurd hkey ((user_already_has_code_false_iff _ _ _).1 hfresh)

theorem givepromo_inv (s : BotState) (tg : Nat) (gt : String) (qty : Nat)
    (parts : List String) (hWF : PromosWF s.promos) (hB : BudgetOk s.promos) :
    PromosWF (givepromo_codes_entered s tg gt qty parts).promos ∧
    BudgetOk (givepromo_codes_entered s tg gt qty parts).promos := by
  rcases givepromo_cases s tg gt qty parts with heq | ⟨valid, hv, hnd, _, hpr, _, _⟩
  · rw [heq]
    exact ⟨hWF, hB⟩
  · obtain ⟨hmap, hspec⟩ := validate_codes_spec s.promos s.ledger tg parts valid hv
    have hvnd : valid.Nodup := List.Nodup.of_map _ (by rw [hmap]; exact hnd)
    have hpids : (valid.map (fun pc => pc.1)).Nodup := by
      apply List.Nodup.map_on ?_ hvnd
      intro pc1 h1 pc2 h2 hfst
      obtain ⟨q1, hq1m, hq1c, hq1p, _, _⟩ := hspec pc1 h1
      obtain ⟨q2, hq2m, hq2c, hq2p, _, _⟩ := hspec pc2 h2
      have hq : q1 = q2 := List.inj_on_of_nodup_map hWF.2 hq1m hq2m
        (by rw [hq1p, hq2p, hfst])
      have hsnd : pc1.2 = pc2.2 := by rw [← hq1c, hq, hq2c]
      exact Prod.ext hfst hsnd
    rw [hpr, gp_fold_promos _ _ _ _ hpids]
    refine ⟨⟨?_, ?_⟩, ?_⟩
    · rw [List.map_map]
      have hcongr : ∀ p ∈ s.promos, ((fun p => p.code) ∘ fun p =>
          if valid.any (fun pc => pc.1 == p.pid) then
            { p with used := p.used + 1 } else p) p = p.code := by
        intro p _
        by_cases hc : (valid.any fun pc => pc.1 == p.pid) = true
        · simp [hc]
        · simp [hc]
      rw [List.map_congr_left hcongr]
      exact hWF.1
    · rw [List.map_map]
      have hcongr : ∀ p ∈ s.promos, ((fun p => p.pid) ∘ fun p =>
          if valid.any (fun pc => pc.1 == p.pid) then
            { p with used := p.used + 1 } else p) p = p.pid := by
        intro p _
        by_cases hc : (valid.any fun pc => pc.1 == p.pid) = true
        · simp [hc]
        · simp [hc]
      rw [List.map_congr_left hcongr]
      exact hWF.2
    · intro p' hp'
      rw [List.mem_map] at hp'
      obtain ⟨p, hp, hpeq⟩ := hp'
      subst hpeq
      by_cases hc : (valid.any fun pc => pc.1 == p.pid) = true
      · rw [if_pos hc]
        rw [List.any_eq_true] at hc
        obtain ⟨pc, hpc, hpcp⟩ := hc
        have hpid : pc.1 = p.pid := by simpa using hpcp
        obtain ⟨q, hqm, hqc, hqp, hqr, _⟩ := hspec pc hpc
        have hqe : q = p := List.inj_on_of_nodup_map hWF.2 hqm hp (by rw [hqp, hpid])
        rw [hqe] at hqr
        unfold remaining at hqr
        dsimp only
        omega
      · rw [if_neg hc]
        exact hB p hp

theorem mem_le_foldr_max : ∀ (l : List Nat), ∀ x ∈ l, x ≤ l.foldr max 0 := by
  intro l
  induction l with
  | nil => intro x hx; simp at hx
  | cons a rest ih =>
    intro x hx
    rcases List.mem_cons.1 hx with h | h
    · subst h
      simp only [List.foldr_cons]
      exact le_max_left _ _
    · exact le_trans (ih x h) (by simp only [List.foldr_cons]; exact le_max_right _ _)

theorem add_code_inv (promos : List Promo) (code : String) (uses : Nat)
    (hWF : PromosWF promos) (hB : BudgetOk promos) :
    PromosWF (add_code promos code uses) ∧ BudgetOk (add_code promos code uses) := by
  unfold add_code
  by_cases h : (promos.any fun p => p.code == code) = true
  · rw [if_pos h]
    exact ⟨hWF, hB⟩
  · rw [if_neg h]
    rw [Bool.not_eq_true, List.any_eq_false] at h
    refine ⟨⟨?_, ?_⟩, ?_⟩
    · rw [List.map_append, List.nodup_append]
      refine ⟨hWF.1, by simp, ?_⟩
      intro c hc hc2
      simp only [List.map_cons, List.map_nil, List.mem_singleton] at hc2
      rw [hc2] at hc
      simp only [List.mem_map] at hc
      obtain ⟨p, hp, hpc⟩ := hc
      exact (h p hp) (by simp [hpc])
    · rw [List.map_append, List.nodup_append]
      refine ⟨hWF.2, by simp, ?_⟩
      intro x hx hx2
      simp only [List.map_cons, List.map_nil, List.mem_singleton] at hx2
      subst hx2
      simp only [List.mem_map] at hx
      obtain ⟨p, hp, hpc⟩ := hx
      have := mem_le_foldr_max (promos.map (fun p => p.pid)) p.pid
        (List.mem_map_of_mem _ hp)
      unfold fresh_pid at hpc
      omega
    · intro p hp
      rcases List.mem_append.1 hp with hh | hh
      · exact hB p hh
      · rw [List.mem_singleton.1 hh]
        dsimp only
        positivity

theorem add_promocodes_inv :
    ∀ (codes : List String) (promos : List Promo) (uses : Nat),
      PromosWF promos → BudgetOk promos →
      PromosWF (add_promocodes promos codes uses) ∧
      BudgetOk (add_promocodes promos codes uses) := by
  intro codes
  induction codes with
  | nil => intro promos uses hWF hB; exact ⟨hWF, hB⟩
  | cons c rest ih =>
    intro promos uses hWF hB
    obtain ⟨h1, h2⟩ := add_code_inv promos c uses hWF hB
    exact ih (add_code promos c uses) uses h1 h2

theorem weekly_cases (wk : String) (s : BotState) :
    ((s.settings.last_distribution_date = wk ∨ s.settings.weekly_confirmed ≠ "1") ∧
      weekly_distribution_job wk s = s) ∨
    (s.settings.last_distribution_date ≠ wk ∧ s.settings.weekly_confirmed = "1" ∧
      (compute_allocation_ordered s.positions s.promos s.settings.reserve s.ledger).isEmpty ∧
      weekly_distribution_job wk s
        = { s with settings := { s.settings with weekly_confirmed := "0" } }) ∨
    (s.settings.last_distribution_date ≠ wk ∧ s.settings.weekly_confirmed = "1" ∧
      ¬ (compute_allocation_ordered s.positions s.promos s.settings.reserve s.ledger).isEmpty ∧
      weekly_distribution_job wk s
        = { run_plan "normal"
              (compute_allocation_ordered s.positions s.promos s.settings.reserve s.ledger) s with
            settings := { (run_plan "normal"
              (compute_allocation_ordered s.positions s.promos s.settings.reserve s.ledger)
                s).settings with
              last_distribution_date := wk, weekly_confirmed := "0" },
            jobs := (run_plan "normal"
              (compute_allocation_ordered s.positions s.promos s.settings.reserve s.ledger)
                s).jobs.filter (fun j => j ≠ reminder_id wk) }) := by
  by_cases h1 : s.settings.last_distribution_date = wk
  · left
    refine ⟨Or.inl h1, ?_⟩
    simp [weekly_distribution_job, h1]
  · by_cases h2 : s.settings.weekly_confirmed ≠ "1"
    · left
      refine ⟨Or.inr h2, ?_⟩
      simp [weekly_distribution_job, h1, h2]
    · by_cases h3 : (compute_allocation_ordered s.positions s.promos
          s.settings.reserve s.ledger).isEmpty
      · right
        left
        refine ⟨h1, not_not.1 h2, h3, ?_⟩
        simp [weekly_distribution_job, h1, h2, h3]
      · right
        right
        refine ⟨h1, not_not.1 h2, h3, ?_⟩
        simp [weekly_distribution_job, h1, h2, h3]

theorem manual_cases (wk : String) (s : BotState) :
    (cb_manual_confirm wk s = s ∧
      (compute_allocation_ordered s.positions s.promos s.settings.reserve s.ledger).isEmpty) ∨
    (¬ (compute_allocation_ordered s.positions s.promos s.settings.reserve s.ledger).isEmpty ∧
      cb_manual_confirm wk s
        = { run_plan "manual"
              (compute_allocation_ordered s.positions s.promos s.settings.reserve s.ledger) s with
            settings := { (run_plan "manual"
              (compute_allocation_ordered s.positions s.promos s.settings.reserve s.ledger)
                s).settings with
              last_distribution_date := wk } }) := by
  by_cases h3 : (compute_allocation_ordered s.positions s.promos
      s.settings.reserve s.ledger).isEmpty
  · left
    constructor
    · simp [cb_manual_confirm, h3]
    · exact h3
  · right
    refine ⟨h3, ?_⟩
    simp [cb_manual_confirm, h3]

theorem upd_used_map_codes (P : List Promo) (k : String → Nat) :
    (P.map (upd_used k)).map (fun p => p.code) = P.map (fun p => p.code) := by
  rw [List.map_map]
  rfl

theorem upd_used_map_pids (P : List Promo) (k : String → Nat) :
    (P.map (upd_used k)).map (fun p => p.pid) = P.map (fun p => p.pid) := by
  rw [List.map_map]
  rfl

theorem run_plan_effect (src : String) (s : BotState)
    (hWF : PromosWF s.promos) (hB : BudgetOk s.promos) :
    PromosWF (run_plan src
      (compute_allocation_ordered s.positions s.promos s.settings.reserve s.ledger) s).promos ∧
    BudgetOk (run_plan src
      (compute_allocation_ordered s.positions s.promos s.settings.reserve s.ledger) s).promos ∧
    total_available s.promos
        - total_available (run_plan src
            (compute_allocation_ordered s.positions s.promos s.settings.reserve s.ledger)
            s).promos
      = ((run_plan src
            (compute_allocation_ordered s.positions s.promos s.settings.reserve s.ledger)
            s).ledger.length : Int) - s.ledger.length := by
  have hcnt := compute_allocation_count s.positions s.promos s.settings.reserve s.ledger hWF.1
  have hbound : ∀ p ∈ s.promos, (((fun _ => (0 : Nat)) p.code : Nat) : Int)
      + (((flat_units (compute_allocation_ordered s.positions s.promos s.settings.reserve
            s.ledger)).map (fun u => u.2)).count p.code : Int) ≤ max 0 (remaining p) := by
    intro p hp
    rw [flat_units_count]
    simpa using hcnt p hp
  obtain ⟨k', hk', hbound', hdelta⟩ := run_units_budget s.promos src hWF.1 hWF.2
    (flat_units (compute_allocation_ordered s.positions s.promos s.settings.reserve s.ledger))
    s (fun _ => 0) (by rw [map_upd_zero]) hbound
  rw [run_plan_eq_units]
  refine ⟨⟨?_, ?_⟩, ?_, hdelta⟩
  · rw [hk', upd_used_map_codes]
    exact hWF.1
  · rw [hk', upd_used_map_pids]
    exact hWF.2
  · rw [hk']
    intro p' hp'
    rw [List.mem_map] at hp'
    obtain ⟨p, hp, hpeq⟩ := hp'
    subst hpeq
    have h1 := hbound' p hp
    have h2 := hB p hp
    have h3 : max 0 (remaining p) = remaining p := max_eq_right (by unfold remaining; omega)
    rw [h3] at h1
    unfold remaining at h1
    unfold upd_used
    dsimp only
    omega

theorem weekly_uniq (wk : String) (s : BotState) (h : UniqLedger s.ledger) :
    UniqLedger (weekly_distribution_job wk s).ledger := by
  rcases weekly_cases wk s with ⟨_, heq⟩ | ⟨_, _, _, heq⟩ | ⟨_, _, _, heq⟩
  · rw [heq]
    exact h
  · rw [heq]
    exact h
  · rw [heq]
    rw [run_plan_eq_units]
    exact run_units_uniq _ _ _ _ h

theorem manual_uniq (wk : String) (s : BotState) (h : UniqLedger s.ledger) :
    UniqLedger (cb_manual_confirm wk s).ledger := by
  rcases manual_cases wk s with ⟨heq, _⟩ | ⟨_, heq⟩
  · rw [heq]
    exact h
  · rw [heq]
    rw [run_plan_eq_units]
    exact run_units_uniq _ _ _ _ h

theorem weekly_inv (wk : String) (s : BotState)
    (hWF : PromosWF s.promos) (hB : BudgetOk s.promos) :
    PromosWF (weekly_distribution_job wk s).promos ∧
    BudgetOk (weekly_distribution_job wk s).promos ∧
    total_available s.promos - total_available (weekly_distribution_job wk s).promos
      = ((weekly_distribution_job wk s).ledger.length : Int) - s.ledger.length := by
  rcases weekly_cases wk s with ⟨_, heq⟩ | ⟨_, _, _, heq⟩ | ⟨_, _, _, heq⟩
  · rw [heq]
    exact ⟨hWF, hB, by omega⟩
  · rw [heq]
    exact ⟨hWF, hB, by dsimp only; omega⟩
  · rw [heq]
    exact run_plan_effect "normal" s hWF hB

theorem manual_inv (wk : String) (s : BotState)
    (hWF : PromosWF s.promos) (hB : BudgetOk s.promos) :
    PromosWF (cb_manual_confirm wk s).promos ∧
    BudgetOk (cb_manual_confirm wk s).promos := by
  rcases manual_cases wk s with ⟨heq, _⟩ | ⟨_, heq⟩
  · rw [heq]
    exact ⟨hWF, hB⟩
  · rw [heq]
    obtain ⟨h1, h2, _⟩ := run_plan_effect "manual" s hWF hB
    exact ⟨h1, h2⟩

theorem send_confirmation_parts (wk : String) (b : Bool) (s : BotState) :
    (send_weekly_confirmation wk b s).ledger = s.ledger ∧
    (send_weekly_confirmation wk b s).promos = s.promos ∧
    (send_weekly_confirmation wk b s).positions = s.positions ∧
    (send_weekly_confirmation wk b s).settings.weekly_confirmed = "0" ∧
    (send_weekly_confirmation wk b s).settings.reserve = s.settings.reserve ∧
    (send_weekly_confirmation wk b s).settings.last_distribution_date
      = s.settings.last_distribution_date := by
  unfold send_weekly_confirmation
  by_cases hb : b = true
  · simp [hb]
  · simp [hb]

theorem step_uniq {s s' : BotState} (h : Step s s') (hu : UniqLedger s.ledger) :
    UniqLedger s'.ledger := by
  cases h with
  | setusers ids s => exact hu
  | assign pos tg s => exact hu
  | addpromo codes uses put s => exact hu
  | confirm s => exact hu
  | report_error s => exact hu
  | send_confirmation wk b s =>
    rw [(send_confirmation_parts wk b s).1]
    exact hu
  | weekly wk s => exact weekly_uniq wk s hu
  | manual wk s => exact manual_uniq wk s hu
  | give tg gt qty parts s => exact givepromo_uniq s tg gt qty parts hu

theorem step_inv {s s' : BotState} (h : Step s s')
    (hWF : PromosWF s.promos) (hB : BudgetOk s.promos) :
    PromosWF s'.promos ∧ BudgetOk s'.promos := by
  cases h with
  | setusers ids s => exact ⟨hWF, hB⟩
  | assign pos tg s => exact ⟨hWF, hB⟩
  | addpromo codes uses put s =>
    exact add_promocodes_inv codes s.promos uses hWF hB
  | confirm s => exact ⟨hWF, hB⟩
  | report_error s => exact ⟨hWF, hB⟩
  | send_confirmation wk b s =>
    rw [(send_confirmation_parts wk b s).2.1]
    exact ⟨hWF, hB⟩
  | weekly wk s =>
    obtain ⟨h1, h2, _⟩ := weekly_inv wk s hWF hB
    exact ⟨h1, h2⟩
  | manual wk s => exact manual_inv wk s hWF hB
  | give tg gt qty parts s => exact givepromo_inv s tg gt qty parts hWF hB

theorem reachable_uniq (s s' : BotState) (h : Reachable s s')
    (hu : UniqLedger s.ledger) : UniqLedger s'.ledger := by
  induction h with
  | refl => exact hu
  | tail _ hstep ih => exact step_uniq hstep ih

theorem reachable_wf (s' : BotState) (h : Reachable initState s') :
    PromosWF s'.promos ∧ BudgetOk s'.promos := by
  induction h with
  | refl =>
    exact ⟨⟨List.nodup_nil, List.nodup_nil⟩, fun p hp => absurd hp (List.not_mem_nil p)⟩
  | tail _ hstep ih => exact step_inv hstep ih.1 ih.2

theorem weekly_noop_of_marker (wk : String) (s : BotState)
    (h : s.settings.last_distribution_date = wk) :
    weekly_distribution_job wk s = s := by
  unfold weekly_distribution_job
  rw [if_pos h]

theorem weekly_noop_of_unconfirmed (wk : String) (s : BotState)
    (h : s.settings.weekly_confirmed ≠ "1") :
    weekly_distribution_job wk s = s := by
  unfold weekly_distribution_job
  by_cases h1 : s.settings.last_distribution_date = wk
  · rw [if_pos h1]
  · rw [if_neg h1, if_pos h]

theorem zip_fst_filterMap :
    ∀ (ps : List (Option Nat)) (al : List Int), ps.length ≤ al.length →
      ((ps.zip al).filterMap (fun sc => sc.1)) = ps.filterMap id := by
  intro ps
  induction ps with
  | nil => intro al _; rfl
  | cons o rest ih =>
    intro al hlen
    cases al with
    | nil => simp at hlen
    | cons a arest =>
      have hrec := ih arest (by simp only [List.length_cons] at hlen; omega)
      cases o with
      | none => simpa using hrec
      | some u => simpa using hrec

theorem run_plan_compare (plan : List (Nat × List String)) (s : BotState) :
    (run_plan "manual" plan s).promos = (run_plan "normal" plan s).promos ∧
    (run_plan "manual" plan s).ledger.map strip_source
      = (run_plan "normal" plan s).ledger.map strip_source ∧
    (∀ e ∈ (run_plan "manual" plan s).ledger.drop s.ledger.length, e.source = "manual") ∧
    (∀ e ∈ (run_plan "normal" plan s).ledger.drop s.ledger.length, e.source = "normal") ∧
    (run_plan "manual" plan s).settings = s.settings ∧
    (run_plan "normal" plan s).settings = s.settings ∧
    (run_plan "manual" plan s).jobs = s.jobs := by
  rw [run_plan_eq_units, run_plan_eq_units]
  obtain ⟨hp, hl⟩ := run_units_src (rem_map s.promos) "manual" "normal"
    (flat_units plan) s s rfl rfl
  obtain ⟨newsM, hnm, hsm⟩ := run_units_news (rem_map s.promos) "manual" (flat_units plan) s
  obtain ⟨newsN, hnn, hsn⟩ := run_units_news (rem_map s.promos) "normal" (flat_units plan) s
  refine ⟨hp, hl, ?_, ?_, (run_units_frame _ _ _ _).1, (run_units_frame _ _ _ _).1,
    (run_units_frame _ _ _ _).2.2⟩
  · intro e he
    rw [hnm, List.drop_left] at he
    exact hsm e he
  · intro e he
    rw [hnn, List.drop_left] at he
    exact hsn e he

/-!
## The claims
-/

/-- C1: in every state reachable by running the bot's operations (the scheduled
weekly distribution job, the manual-override distribution, the interactive
manual issuance flow, and the auxiliary flows) from a state whose ledger is
duplicate-free, the ledger contains at most one entry per
(participant, code) pair. -/
theorem ledger_uniqueness (s s' : BotState) (hu : UniqLedger s.ledger)
    (h : Reachable s s') : UniqLedger s'.ledger :=
  reachable_uniq s s' h hu

theorem ledger_uniqueness_witness :
    UniqLedger (weekly_distribution_job "2025-01-05"
      (cb_weekly_confirm (setusers (addpromo_flow initState ["A"] 5 0) [some 7]))).ledger :=
  ledger_uniqueness initState _ List.nodup_nil
    ((((Relation.ReflTransGen.single (Step.addpromo ["A"] 5 0 initState)).tail
        (Step.setusers [some 7] (addpromo_flow initState ["A"] 5 0))).tail
      (Step.confirm (setusers (addpromo_flow initState ["A"] 5 0) [some 7]))).tail
      (Step.weekly "2025-01-05"
        (cb_weekly_confirm (setusers (addpromo_flow initState ["A"] 5 0) [some 7]))))

/-- C2 counterexample: in `exC2State` the confirmation flag is unset and the
period marker already equals the current period, yet the manual-override path
still issues a code: it checks neither guard. -/
theorem manual_override_bypasses_guards :
    exC2State.settings.weekly_confirmed = "0" ∧
    exC2State.settings.last_distribution_date = "2025-01-05" ∧
    (cb_manual_confirm "2025-01-05" exC2State).ledger.length = 1 := by
  refine ⟨rfl, rfl, ?_⟩
  decide

/-- C2 (amended): the manual-override path runs whenever the freshly computed
allocation is non-empty, regardless of the confirmation flag or the period
marker.  Under the scheduled trigger's own guard conditions the two paths
assign the same codes to the same participants — the manual path tags its new
entries `"manual"` where the scheduled path tags them `"normal"` — but the
manual path only sets the period marker, leaving the confirmation flag and
the job queue untouched, while the scheduled path also clears the flag. -/
theorem manual_override_amended (wk : String) (s : BotState)
    (h1 : s.settings.weekly_confirmed = "1")
    (h2 : s.settings.last_distribution_date ≠ wk)
    (h3 : ¬ (compute_allocation_ordered s.positions s.promos s.settings.reserve
        s.ledger).isEmpty) :
    (cb_manual_confirm wk s).promos = (weekly_distribution_job wk s).promos ∧
    (cb_manual_confirm wk s).ledger.map strip_source
      = (weekly_distribution_job wk s).ledger.map strip_source ∧
    (∀ e ∈ (cb_manual_confirm wk s).ledger.drop s.ledger.length, e.source = "manual") ∧
    (∀ e ∈ (weekly_distribution_job wk s).ledger.drop s.ledger.length, e.source = "normal") ∧
    (cb_manual_confirm wk s).settings.last_distribution_date = wk ∧
    (cb_manual_confirm wk s).settings.weekly_confirmed = s.settings.weekly_confirmed ∧
    (cb_manual_confirm wk s).jobs = s.jobs ∧
    (weekly_distribution_job wk s).settings.weekly_confirmed = "0" ∧
    (weekly_distribution_job wk s).settings.last_distribution_date = wk := by
  rcases manual_cases wk s with ⟨_, hempty⟩ | ⟨_, hm⟩
  · exact absurd hempty h3
  rcases weekly_cases wk s with ⟨hg, _⟩ | ⟨_, _, hempty, _⟩ | ⟨_, _, _, hw⟩
  · rcases hg with hg | hg
    · exact absurd hg h2
    · exact absurd h1 hg
  · exact absurd hempty h3
  obtain ⟨hp, hl, hsm, hsn, hstM, _, hjM⟩ := run_plan_compare
    (compute_allocation_ordered s.positions s.promos s.settings.reserve s.ledger) s
  rw [hm, hw]
  refine ⟨hp, hl, hsm, hsn, rfl, ?_, hjM, rfl, rfl⟩
  show (run_plan "manual"
    (compute_allocation_ordered s.positions s.promos s.settings.reserve s.ledger)
      s).settings.weekly_confirmed = s.settings.weekly_confirmed
  rw [hstM]

theorem manual_override_amended_witness :
    (cb_manual_confirm "2025-01-05" exConfirmedState).promos
      = (weekly_distribution_job "2025-01-05" exConfirmedState).promos ∧
    (cb_manual_confirm "2025-01-05" exConfirmedState).ledger.map strip_source
      = (weekly_distribution_job "2025-01-05" exConfirmedState).ledger.map strip_source ∧
    (∀ e ∈ (cb_manual_confirm "2025-01-05" exConfirmedState).ledger.drop
        exConfirmedState.ledger.length, e.source = "manual") ∧
    (∀ e ∈ (weekly_distribution_job "2025-01-05" exConfirmedState).ledger.drop
        exConfirmedState.ledger.length, e.source = "normal") ∧
    (cb_manual_confirm "2025-01-05" exConfirmedState).settings.last_distribution_date
      = "2025-01-05" ∧
    (cb_manual_confirm "2025-01-05" exConfirmedState).settings.weekly_confirmed
      = exConfirmedState.settings.weekly_confirmed ∧
    (cb_manual_confirm "2025-01-05" exConfirmedState).jobs = exConfirmedState.jobs ∧
    (weekly_distribution_job "2025-01-05" exConfirmedState).settings.weekly_confirmed = "0" ∧
    (weekly_distribution_job "2025-01-05" exConfirmedState).settings.last_distribution_date
      = "2025-01-05" :=
  manual_override_amended "2025-01-05" exConfirmedState rfl (by decide) (by decide)

/-- C3: in the quantity-allocation pass over the rank-ordered roster, an
unoccupied slot receives nothing, an occupied slot of rank at most 15 receives
exactly `min 3` of what is still distributable at its turn, and an occupied
slot beyond rank 15 receives exactly `min 1` of what is still distributable at
its turn — so every occupied slot among the first 15 gets up to 3 units and
every later occupied slot gets at most 1 unit, in rank order, before any
spillover redistribution. -/
theorem quota_shape (ordered : List (Option Nat)) (d0 : Int) (h0 : 0 ≤ d0)
    (i : Nat) (hi : i < ordered.length) :
    (quota_pass ordered 15 d0).1.getD i 0
      = (if (ordered.getD i none).isSome
         then min (if i < 15 then 3 else 1)
           (d0 - ((quota_pass ordered 15 d0).1.take i).sum)
         else 0) ∧
    (quota_pass ordered 15 d0).1.getD i 0 ≤ (if i < 15 then 3 else 1) ∧
    0 ≤ (quota_pass ordered 15 d0).1.getD i 0 := by
  have h := quota_pass_getD ordered 15 d0 h0 i hi
  refine ⟨h, ?_, ?_⟩
  · rw [h]
    by_cases hocc : (ordered.getD i none).isSome = true
    · rw [if_pos hocc]
      exact min_le_left _ _
    · rw [if_neg hocc]
      by_cases h15 : i < 15 <;> simp [h15]
  · have hlen := quota_pass_length ordered 15 d0
    rw [List.getD_eq_getElem _ _ (by omega)]
    exact quota_pass_mem_nonneg ordered 15 d0 h0 _ (List.getElem_mem _)

theorem quota_shape_witness :
    (0 : Int) ≤ 100 ∧ 15 < ((List.range 20).map (fun j => some (j + 1))).length ∧
    ((quota_pass ((List.range 20).map (fun j => some (j + 1))) 15 100).1.getD 15 0
        ≤ (if 15 < 15 then 3 else 1) ∧
      0 ≤ (quota_pass ((List.range 20).map (fun j => some (j + 1))) 15 100).1.getD 15 0) :=
  ⟨by decide, by decide,
    (quota_shape ((List.range 20).map (fun j => some (j + 1))) 100 (by decide) 15
      (by decide)).2⟩

/-- C4: the allocation algorithm returns the empty plan whenever
`total_available − reserve ≤ 0`, and in every case the total number of units
it assigns is at most `max 0 (total_available − reserve)`. -/
theorem reserve_exclusion (positions : List (Option Nat)) (promos : List Promo)
    (reserve : Int) (ledger : List Entry) :
    (total_available promos - reserve ≤ 0 →
      compute_allocation_ordered positions promos reserve ledger = []) ∧
    (plan_len (compute_allocation_ordered positions promos reserve ledger) : Int)
      ≤ max 0 (total_available promos - reserve) := by
  constructor
  · exact compute_allocation_empty_of_nonpos positions promos reserve ledger
  · by_cases hd : 0 ≤ total_available promos - reserve
    · have h := compute_allocation_len positions promos reserve ledger hd
      omega
    · rw [compute_allocation_empty_of_nonpos positions promos reserve ledger (by omega)]
      have h0 : (plan_len ([] : List (Nat × List String)) : Int) = 0 := rfl
      rw [h0]
      exact le_max_left 0 _

theorem reserve_exclusion_witness :
    compute_allocation_ordered [some 7] [⟨1, "A", 5, 0⟩] 5 [] = [] ∧
    (plan_len (compute_allocation_ordered [some 7] [⟨1, "A", 5, 0⟩] 0 []) : Int)
      ≤ max 0 (total_available [(⟨1, "A", 5, 0⟩ : Promo)] - 0) :=
  ⟨(reserve_exclusion [some 7] [⟨1, "A", 5, 0⟩] 5 []).1 (by decide),
   (reserve_exclusion [some 7] [⟨1, "A", 5, 0⟩] 0 []).2⟩

/-- C5: the period trigger is idempotent — running `weekly_distribution_job`
twice for the same period key yields exactly the state of a single run, for
every starting state (after a run the marker equals the period key, so the
second run is a no-op; if the first run was itself a no-op or only cleared
the flag, the second run short-circuits the same way). -/
theorem period_trigger_idempotent (wk : String) (s : BotState) :
    weekly_distribution_job wk (weekly_distribution_job wk s)
      = weekly_distribution_job wk s := by
  rcases weekly_cases wk s with ⟨_, heq⟩ | ⟨_, _, _, heq⟩ | ⟨_, _, _, heq⟩
  · rw [heq, heq]
  · rw [heq]
    refine weekly_noop_of_unconfirmed wk _ ?_
    show ("0" : String) ≠ "1"
    decide
  · rw [heq]
    exact weekly_noop_of_marker wk _ rfl

/-- C6: in every state reachable from the empty initial state, each code's
consumed count is at most its total budget, and a single run of the period
trigger decreases `total_available` (the remaining budget) by exactly the
number of ledger entries that run creates. -/
theorem budget_conservation (s : BotState) (h : Reachable initState s) :
    (∀ p ∈ s.promos, p.used ≤ p.total_uses) ∧
    ∀ wk : String,
      total_available s.promos - total_available (weekly_distribution_job wk s).promos
        = ((weekly_distribution_job wk s).ledger.length : Int)
          - (s.ledger.length : Int) := by
  obtain ⟨hWF, hB⟩ := reachable_wf s h
  exact ⟨hB, fun wk => (weekly_inv wk s hWF hB).2.2⟩

theorem budget_conservation_witness :
    total_available (cb_weekly_confirm
        (setusers (addpromo_flow initState ["A"] 5 0) [some 7])).promos
      - total_available (weekly_distribution_job "2025-01-05" (cb_weekly_confirm
          (setusers (addpromo_flow initState ["A"] 5 0) [some 7]))).promos
      = ((weekly_distribution_job "2025-01-05" (cb_weekly_confirm
            (setusers (addpromo_flow initState ["A"] 5 0) [some 7]))).ledger.length : Int)
        - ((cb_weekly_confirm
            (setusers (addpromo_flow initState ["A"] 5 0) [some 7])).ledger.length : Int) :=
  (budget_conservation _
    (((Relation.ReflTransGen.single (Step.addpromo ["A"] 5 0 initState)).tail
        (Step.setusers [some 7] (addpromo_flow initState ["A"] 5 0))).tail
      (Step.confirm (setusers (addpromo_flow initState ["A"] 5 0) [some 7])))).2
    "2025-01-05"

/-- C7 counterexample: in `exC7State` the period is confirmed and the freshly
recomputed allocation is empty, yet the trigger leaves the last-executed
period marker unchanged (empty, not the current period key): the empty-plan
branch only clears the confirmation flag. -/
theorem empty_plan_trigger_keeps_marker :
    exC7State.settings.weekly_confirmed = "1" ∧
    exC7State.settings.last_distribution_date ≠ "2025-01-05" ∧
    compute_allocation_ordered exC7State.positions exC7State.promos
      exC7State.settings.reserve exC7State.ledger = [] ∧
    (weekly_distribution_job "2025-01-05" exC7State).settings.last_distribution_date
      = "" := by
  refine ⟨rfl, by decide, by decide, by decide⟩

/-- C7 (amended): if the period is confirmed, not yet executed, and the
freshly recomputed allocation is empty, the trigger creates no ledger entries
and changes nothing except clearing the confirmation flag — in particular it
does NOT set the last-executed period marker. -/
theorem empty_plan_trigger_clears_flag (wk : String) (s : BotState)
    (h1 : s.settings.last_distribution_date ≠ wk)
    (h2 : s.settings.weekly_confirmed = "1")
    (h3 : compute_allocation_ordered s.positions s.promos s.settings.reserve s.ledger
      = []) :
    weekly_distribution_job wk s
      = { s with settings := { s.settings with weekly_confirmed := "0" } } := by
  rcases weekly_cases wk s with ⟨hg, _⟩ | ⟨_, _, _, heq⟩ | ⟨_, _, hne, _⟩
  · rcases hg with hg | hg
    · exact absurd hg h1
    · exact absurd h2 hg
  · exact heq
  · rw [h3] at hne
    exact absurd rfl hne

theorem empty_plan_trigger_clears_flag_witness :
    weekly_distribution_job "2025-01-05" exC7State
      = { exC7State with
          settings := { exC7State.settings with weekly_confirmed := "0" } } :=
  empty_plan_trigger_clears_flag "2025-01-05" exC7State (by decide) rfl (by decide)

/-- C8: when each participant is bound to at most one roster slot, every
participant's list in the computed allocation consists of pairwise-distinct
codes, none of which already appears in that participant's ledger entries. -/
theorem allocation_codes_distinct_unissued (positions : List (Option Nat))
    (promos : List Promo) (reserve : Int) (ledger : List Entry)
    (hnd : (positions.filterMap id).Nodup) :
    ∀ e ∈ compute_allocation_ordered positions promos reserve ledger,
      e.2.Nodup ∧ ∀ c ∈ e.2, user_already_has_code ledger e.1 c = false := by
  intro e hmem
  rcases compute_allocation_eq positions promos reserve ledger with h | ⟨_, h⟩
  · rw [h] at hmem
    exact absurd hmem (List.not_mem_nil e)
  · rw [h] at hmem
    refine select_codes_good ledger _ _ 0 [] ?_ ?_ ?_ e hmem
    · rw [zip_fst_filterMap positions _
        (quota_alloc_length positions (total_available promos - reserve)).ge]
      exact hnd
    · intro x hx
      exact absurd hx (List.not_mem_nil x)
    · intro x hx
      exact absurd hx (List.not_mem_nil x)

theorem allocation_codes_distinct_unissued_witness :
    (([some 7] : List (Option Nat)).filterMap id).Nodup ∧
    ((7, ["A"]).2.Nodup ∧
      ∀ c ∈ (7, ["A"]).2, user_already_has_code [] (7, ["A"]).1 c = false) :=
  ⟨by decide,
    allocation_codes_distinct_unissued [some 7] [⟨1, "A", 5, 0⟩] 0 [] (by decide)
      (7, ["A"]) (by decide)⟩

/-- C9 counterexample: in `exC9State` the confirmation flag is unset and a
reminder job for the period is pending; the trigger returns with the state
unchanged, so the pending reminder job is NOT cleared. -/
theorem unconfirmed_trigger_keeps_reminder :
    exC9State.settings.weekly_confirmed ≠ "1" ∧
    exC9State.jobs = [reminder_id "2025-01-05"] ∧
    (weekly_distribution_job "2025-01-05" exC9State).jobs
      = [reminder_id "2025-01-05"] := by
  refine ⟨by decide, rfl, by decide⟩

/-- C9 (amended): if the confirmation flag is not set when the period trigger
fires, the trigger returns immediately with the state completely unchanged —
no ledger entry, no budget consumption, no marker change, and also no change
to the job queue (the pending reminder job is left in place). -/
theorem unconfirmed_trigger_noop (wk : String) (s : BotState)
    (h : s.settings.weekly_confirmed ≠ "1") :
    weekly_distribution_job wk s = s :=
  weekly_noop_of_unconfirmed wk s h

theorem unconfirmed_trigger_noop_witness :
    weekly_distribution_job "2025-01-05" exC9State = exC9State :=
  unconfirmed_trigger_noop "2025-01-05" exC9State (by decide)

/-- C10: sending the weekly confirmation request unconditionally resets the
confirmation flag to `"0"` before the prompt goes out, for every state and
whether or not a reminder job is scheduled, so an earlier confirmation never
carries over to the upcoming execution. -/
theorem confirmation_prompt_resets_flag (wk : String) (b : Bool) (s : BotState) :
    (send_weekly_confirmation wk b s).settings.weekly_confirmed = "0" :=
  (send_confirmation_parts wk b s).2.2.2.1
